import Mathlib

/-!
Verification of the CalorieAI core (src/app.py): the response extractor
(_extract_meals_from_content), the numeric normalizer (_safe_num,
_recompute_calories, _normalize_meal, _normalize_meals) and the TTL cache
(_cache_get, _cache_set).

Modelling conventions:
* Python/JSON numbers are modelled as exact rationals (ℚ); float arithmetic
  is treated as exact, and non-finite floats (inf/nan) are outside the model.
* Python dicts are association lists with Python's assignment semantics
  (overwriting a present key keeps its position, a fresh key is appended).
* Python round() is round-half-even, modelled exactly on ℚ.
* Fallible Python code (raising paths) is modelled with Except/Option.
-/

namespace CalorieAI

/-- JSON-like values as produced by Python's json.loads (finite numbers as ℚ). -/
inductive JVal : Type where
  | null : JVal
  | bool : Bool → JVal
  | num : ℚ → JVal
  | str : String → JVal
  | arr : List JVal → JVal
  | obj : List (String × JVal) → JVal
deriving Repr

/-- A Python dict with string keys, as an ordered association list. -/
abbrev JObj := List (String × JVal)

/-- Dict lookup (d.get(k)). -/
def aget {α : Type} : List (String × α) → String → Option α
  | [], _ => none
  | (k1, v) :: rest, k => if k1 = k then some v else aget rest k

/-- Dict assignment (d[k] = v): overwrite in place, or append a fresh key. -/
def aset {α : Type} : List (String × α) → String → α → List (String × α)
  | [], k, v => [(k, v)]
  | (k1, v1) :: rest, k, v =>
    if k1 = k then (k, v) :: rest else (k1, v1) :: aset rest k v

/-- Dict key removal (d.pop(k, None)). -/
def adel {α : Type} (l : List (String × α)) (k : String) : List (String × α) :=
  l.filter (fun kv => kv.1 ≠ k)

/-- Python truthiness of a JSON value: None, False, 0, "", [] and the empty dict are falsy. -/
def JVal.falsy : JVal → Bool
  | .null => true
  | .bool b => !b
  | .num q => decide (q = 0)
  | .str s => decide (s = "")
  | .arr l => l.isEmpty
  | .obj o => o.isEmpty

/-! ### Python rounding and numeric coercions -/

/-- Python 3 round() to an integer: round-half-to-even, exact on ℚ. -/
def rhe (q : ℚ) : ℤ :=
  if q - (⌊q⌋ : ℚ) < 1/2 then ⌊q⌋
  else if (1 : ℚ)/2 < q - (⌊q⌋ : ℚ) then ⌊q⌋ + 1
  else if ⌊q⌋ % 2 = 0 then ⌊q⌋ else ⌊q⌋ + 1

/-- Python round(x, d): round-half-even at d decimal places. -/
def roundTo (d : ℕ) (q : ℚ) : ℚ := (rhe (q * 10 ^ d) : ℚ) / 10 ^ d

/-- Values with at most one decimal place (what round(x, 1) produces). -/
def Dec1 (q : ℚ) : Prop := ∃ z : ℤ, q = (z : ℚ) / 10

/-- Python int() truncation toward zero on an exact rational. -/
def truncQ (q : ℚ) : ℤ := if 0 ≤ q then ⌊q⌋ else -⌊-q⌋

/-- Python str.strip() on a character list. -/
def stripChars (cs : List Char) : List Char :=
  ((cs.dropWhile Char.isWhitespace).reverse.dropWhile Char.isWhitespace).reverse

/-- Python str.strip(). -/
def pyStrip (s : String) : String := String.mk (stripChars s.toList)

/-- Split a leading sign off a character list. -/
def signSplit : List Char → Bool × List Char
  | '-' :: cs => (true, cs)
  | '+' :: cs => (false, cs)
  | cs => (false, cs)

/-- A non-empty all-digit character list. -/
def isDigits (cs : List Char) : Bool := !cs.isEmpty && cs.all Char.isDigit

/-- Numeric value of a digit list. -/
def digitsVal (ds : List Char) : ℕ := ds.foldl (fun a c => a * 10 + (c.toNat - 48)) 0

/-- The mantissa part accepted by Python float(): digits with an optional dot
("123", "123.", ".5"). -/
def floatMantissa (cs : List Char) : Option ℚ :=
  match cs.splitOn '.' with
  | [ip] => if isDigits ip then some (digitsVal ip : ℚ) else none
  | [ip, fp] =>
    if ip.all Char.isDigit && fp.all Char.isDigit && !(ip.isEmpty && fp.isEmpty) then
      some ((digitsVal ip : ℚ) + (digitsVal fp : ℚ) / 10 ^ fp.length)
    else none
  | _ => none

/-- Python float(s) on a string: optional sign, decimal mantissa, optional
exponent. Non-finite literals ("inf", "nan") and digit underscores are outside
the model and count as failures. -/
def pyFloatOfString (s : String) : Option ℚ :=
  let cs := stripChars s.toList
  let (neg, cs1) := signSplit cs
  match (cs1.map Char.toLower).splitOn 'e' with
  | [m] => (floatMantissa m).map (fun q => if neg then -q else q)
  | [m, ex] =>
    match floatMantissa m with
    | none => none
    | some q =>
      let (eneg, ed) := signSplit ex
      if isDigits ed then
        let mag := if eneg then q / 10 ^ digitsVal ed else q * 10 ^ digitsVal ed
        some (if neg then -mag else mag)
      else none
  | _ => none

/-- Python int(s) on a string: optional sign and digits only. -/
def pyIntOfString (s : String) : Option ℤ :=
  let (neg, ds) := signSplit (stripChars s.toList)
  if isDigits ds then some (if neg then -(digitsVal ds : ℤ) else (digitsVal ds : ℤ))
  else none

/-- Python float(x) on a JSON value; None, lists and dicts raise (none). -/
def pyFloat : JVal → Option ℚ
  | .num q => some q
  | .bool b => some (if b then 1 else 0)
  | .str s => pyFloatOfString s
  | _ => none

/-- Python int(x) on a JSON value; None, lists and dicts raise (none). -/
def pyInt : JVal → Option ℤ
  | .num q => some (truncQ q)
  | .bool b => some (if b then 1 else 0)
  | .str s => pyIntOfString s
  | _ => none

/-- float() applied to the result of a dict .get (float(None) raises). -/
def pyFloatO : Option JVal → Option ℚ
  | none => none
  | some v => pyFloat v

/-- _safe_num from src/app.py (lines 754-763): coerce to float with 0.0
fallback, clamp negatives when requested, round. -/
def safeNum (x : Option JVal) (decimals : Option ℕ) (nonNegative : Bool) : ℚ :=
  match pyFloatO x with
  | none => 0
  | some val =>
    let val1 := if nonNegative && decide (val < 0) then 0 else val
    match decimals with
    | none => val1
    | some d => roundTo d val1

/-- _recompute_calories from src/app.py (lines 765-767): the 4-4-9 rule,
rounded to an integer. -/
def recomputeCalories (protein carbsTotal fatTotal : ℚ) : ℤ :=
  rhe (4 * (protein + carbsTotal) + 9 * fatTotal)

/-! ### Python str.split() -/

/-- Take the maximal non-whitespace prefix, returning (word, rest). -/
def takeWord : List Char → List Char × List Char
  | [] => ([], [])
  | c :: cs =>
    if c.isWhitespace then ([], c :: cs)
    else
      let p := takeWord cs
      (c :: p.1, p.2)

lemma takeWord_snd_le : ∀ cs : List Char, (takeWord cs).2.length ≤ cs.length := by
  intro cs
  induction cs with
  | nil => simp [takeWord]
  | cons c cs ih =>
    by_cases h : c.isWhitespace
    · simp [takeWord, h]
    · simp only [takeWord, h, Bool.false_eq_true, if_false, List.length_cons]
      omega

/-- Python str.split() with no arguments: words separated by whitespace runs. -/
def wordsOf : List Char → List (List Char)
  | [] => []
  | c :: cs =>
    if c.isWhitespace then wordsOf cs
    else (c :: (takeWord cs).1) :: wordsOf (takeWord cs).2
termination_by cs => cs.length
decreasing_by
  · simp only [List.length_cons]; omega
  · have h := takeWord_snd_le cs; simp only [List.length_cons]; omega

/-! ### The normalizer (_normalize_meal, src/app.py lines 769-858) -/

/-- Shorthand for the _safe_num(x, 1) coercion of one dict field. -/
def coerce1 (o : JObj) (k : String) : ℚ := safeNum (aget o k) (some 1) true

/-- The macros dict rebuilt by _normalize_meal (lines 775-830): per-field
coercion, logical clamps, net-carb recomputation, 4-4-9 calories. -/
def macrosOut (macros carbs fat : JObj) : JObj :=
  let protein := coerce1 macros "protein"
  let carbsTotal := coerce1 carbs "total"
  let fiber0 := coerce1 carbs "fiber"
  let sugar0 := coerce1 carbs "sugar"
  let addedSugar := coerce1 carbs "addedSugar"
  let sugarAlcohols := coerce1 carbs "sugarAlcohols"
  let allulose := coerce1 carbs "allulose"
  let fatTotal := coerce1 fat "total"
  let saturated0 := coerce1 fat "saturated"
  let monounsaturated := coerce1 fat "monounsaturated"
  let polyunsaturated := coerce1 fat "polyunsaturated"
  let omega3 := coerce1 fat "omega3"
  let omega6 := coerce1 fat "omega6"
  let cholesterol := coerce1 fat "cholesterol"
  let sugar := if sugar0 > carbsTotal then carbsTotal else sugar0
  let fiber := if fiber0 > carbsTotal then carbsTotal else fiber0
  let saturated := if saturated0 > fatTotal then fatTotal else saturated0
  let net0 := carbsTotal - fiber - sugarAlcohols - allulose
  let net1 := if net0 < 0 then 0 else net0
  let net := roundTo 1 net1
  let calories := recomputeCalories protein carbsTotal fatTotal
  [("calories", JVal.num (calories : ℚ)),
   ("protein", JVal.num protein),
   ("carbohydrates", JVal.obj
     [("total", JVal.num carbsTotal), ("net", JVal.num net),
      ("fiber", JVal.num fiber), ("sugar", JVal.num sugar),
      ("addedSugar", JVal.num addedSugar),
      ("sugarAlcohols", JVal.num sugarAlcohols),
      ("allulose", JVal.num allulose)]),
   ("fat", JVal.obj
     [("total", JVal.num fatTotal), ("saturated", JVal.num saturated),
      ("monounsaturated", JVal.num monounsaturated),
      ("polyunsaturated", JVal.num polyunsaturated),
      ("omega3", JVal.num omega3), ("omega6", JVal.num omega6),
      ("cholesterol", JVal.num cholesterol)])]

/-- The servingSize dict rebuilt by _normalize_meal (lines 833-846):
int coercion with defaults qty=1, grams=0, unit "plate" when absent. -/
def servingOut (ss : JObj) : JObj :=
  let qty : ℤ := (pyInt ((aget ss "qty").getD (.num 1))).getD 1
  let grams : ℤ := ((pyFloat ((aget ss "grams").getD (.num 0))).map truncQ).getD 0
  let unit := (aget ss "unit").getD (.str "plate")
  [("qty", JVal.num (qty : ℚ)), ("unit", unit), ("grams", JVal.num (grams : ℚ))]

/-- Python " ".join on a word list. -/
def joinWords : List (List Char) → List Char
  | [] => []
  | [w] => w
  | w :: ws => w ++ ' ' :: joinWords ws

/-- The meal-name truncation of _normalize_meal (lines 848-853): strip, split
on whitespace, keep the first 4 words when there are more than 4. -/
def fixName (m : JObj) (nameRaw : String) : JObj :=
  if stripChars nameRaw.toList ≠ [] ∧ (wordsOf (stripChars nameRaw.toList)).length > 4 then
    aset m "mealName"
      (.str (String.mk (joinWords ((wordsOf (stripChars nameRaw.toList)).take 4))))
  else m

/-- `(d.get(k) or {})` followed by attribute access: an empty dict for a
missing or falsy value, pass-through for dicts, AttributeError (modelled as
.error) for truthy non-dicts. -/
def orEmptyObj : Option JVal → Except String JObj
  | none => .ok []
  | some v =>
    if v.falsy then .ok []
    else
      match v with
      | .obj o => .ok o
      | _ => .error "AttributeError"

/-- `(d.get("mealName") or "").strip()`: "" for a missing or falsy value,
pass-through for strings, AttributeError for truthy non-strings. -/
def orEmptyStr : Option JVal → Except String String
  | none => .ok ""
  | some v =>
    if v.falsy then .ok ""
    else
      match v with
      | .str s => .ok s
      | _ => .error "AttributeError"

/-- _normalize_meal from src/app.py (lines 769-855). The .error cases model
the raising paths of the source (attribute access on truthy non-dict
macros/carbohydrates/fat/servingSize or .strip() on a truthy non-string
mealName). -/
def normalizeMeal (meal : JObj) : Except String JObj :=
  match orEmptyObj (aget meal "macros") with
  | .error e => .error e
  | .ok macros =>
  match orEmptyObj (aget macros "carbohydrates") with
  | .error e => .error e
  | .ok carbs =>
  match orEmptyObj (aget macros "fat") with
  | .error e => .error e
  | .ok fat =>
  match orEmptyObj (aget (aset meal "macros" (JVal.obj (macrosOut macros carbs fat)))
      "servingSize") with
  | .error e => .error e
  | .ok ss =>
  match orEmptyStr (aget (aset (aset meal "macros" (JVal.obj (macrosOut macros carbs fat)))
      "servingSize" (JVal.obj (servingOut ss))) "mealName") with
  | .error e => .error e
  | .ok nameRaw =>
    .ok (fixName (aset (aset meal "macros" (JVal.obj (macrosOut macros carbs fat)))
      "servingSize" (JVal.obj (servingOut ss))) nameRaw)

/-- _normalize_meals from src/app.py (lines 857-858). -/
def normalizeMeals (meals : List JObj) : Except String (List JObj) :=
  meals.mapM normalizeMeal

/-! ### Observation helpers for statements -/

/-- Observe a dict-valued field (empty dict when absent or not a dict). -/
def asObj : Option JVal → JObj
  | some (.obj o) => o
  | _ => []

/-- Observe a number-valued field (0 when absent or not a number). -/
def asNum : Option JVal → ℚ
  | some (.num q) => q
  | _ => 0

/-- The payload of a successful normalization ([] on error). -/
def okD (e : Except String JObj) : JObj := e.toOption.getD []

/-- The macros dict of a record. -/
def macrosOf (r : JObj) : JObj := asObj (aget r "macros")

/-- The carbohydrates dict of a record. -/
def carbsOf (r : JObj) : JObj := asObj (aget (macrosOf r) "carbohydrates")

/-- The fat dict of a record. -/
def fatOf (r : JObj) : JObj := asObj (aget (macrosOf r) "fat")

/-- The servingSize dict of a record. -/
def ssOf (r : JObj) : JObj := asObj (aget r "servingSize")

/-- Numeric field of a dict. -/
def fieldQ (o : JObj) (k : String) : ℚ := asNum (aget o k)

/-! ### A model of Python json.loads

Strict JSON over finite numbers: the non-finite extensions Infinity/NaN that
CPython's json accepts are outside the rational model and rejected here, and
surrogate-pair recombination in \u escapes is not modelled. Behaviour on the
JSON fragment exercised by the extractor is that of json.loads. -/

/-- JSON insignificant whitespace. -/
def skipWs : List Char → List Char
  | [] => []
  | c :: cs => if c = ' ' ∨ c = '\t' ∨ c = '\n' ∨ c = '\r' then skipWs cs else c :: cs

/-- Single-character JSON string escapes. -/
def escSimple (c : Char) : Option Char :=
  if c = '\"' then some '\"'
  else if c = '\\' then some '\\'
  else if c = '/' then some '/'
  else if c = 'b' then some (Char.ofNat 8)
  else if c = 'f' then some (Char.ofNat 12)
  else if c = 'n' then some '\n'
  else if c = 'r' then some '\r'
  else if c = 't' then some '\t'
  else none

/-- Is a character a hexadecimal digit? -/
def isHexDigitC (c : Char) : Bool :=
  c.isDigit || ('a' ≤ c.toLower ∧ c.toLower ≤ 'f')

/-- Value of a hexadecimal digit. -/
def hexVal (c : Char) : ℕ :=
  if c.isDigit then c.toNat - 48 else c.toLower.toNat - 87

/-- JSON string body after the opening quote: returns (content, rest after the
closing quote). Control characters are rejected (strict mode). -/
def parseStringChars : List Char → Option (List Char × List Char)
  | [] => none
  | '\"' :: cs => some ([], cs)
  | '\\' :: 'u' :: a :: b :: c :: d :: cs =>
    if isHexDigitC a && isHexDigitC b && isHexDigitC c && isHexDigitC d then
      (parseStringChars cs).map (fun p =>
        (Char.ofNat (hexVal a * 4096 + hexVal b * 256 + hexVal c * 16 + hexVal d) :: p.1, p.2))
    else none
  | '\\' :: e :: cs =>
    match escSimple e with
    | some ch => (parseStringChars cs).map (fun p => (ch :: p.1, p.2))
    | none => none
  | c :: cs =>
    if c.toNat < 32 then none
    else (parseStringChars cs).map (fun p => (c :: p.1, p.2))

/-- Maximal digit prefix, returning (digits, rest). -/
def takeDigits : List Char → List Char × List Char
  | [] => ([], [])
  | c :: cs =>
    if c.isDigit then
      let p := takeDigits cs
      (c :: p.1, p.2)
    else ([], c :: cs)

/-- Optional exponent part of a JSON number applied to a mantissa. -/
def parseExpPart (mant : ℚ) (cs : List Char) : Option (ℚ × List Char) :=
  match cs with
  | 'e' :: t => parseExpDigits mant t
  | 'E' :: t => parseExpDigits mant t
  | _ => some (mant, cs)
where
  parseExpDigits (mant : ℚ) (cs : List Char) : Option (ℚ × List Char) :=
    let (eneg, cs1) := signSplit cs
    let p := takeDigits cs1
    if p.1 = [] then none
    else some ((if eneg then mant / 10 ^ digitsVal p.1 else mant * 10 ^ digitsVal p.1), p.2)

/-- JSON number grammar: -? int frac? exp?, with the no-leading-zero rule. -/
def parseNumber (cs : List Char) : Option (ℚ × List Char) :=
  let (neg, cs1) := match cs with
    | '-' :: t => (true, t)
    | _ => (false, cs)
  let ipp := takeDigits cs1
  if ipp.1 = [] then none
  else if ipp.1.length > 1 ∧ ipp.1.headD '0' = '0' then none
  else
    match ipp.2 with
    | '.' :: t =>
      let fpp := takeDigits t
      if fpp.1 = [] then none
      else
        let mant := (digitsVal ipp.1 : ℚ) + (digitsVal fpp.1 : ℚ) / 10 ^ fpp.1.length
        parseExpPart (if neg then -mant else mant) fpp.2
    | rest =>
      let mant : ℚ := (digitsVal ipp.1 : ℚ)
      parseExpPart (if neg then -mant else mant) rest

mutual

/-- One JSON value with surrounding leading whitespace, fuel-bounded. -/
def parseVal : ℕ → List Char → Option (JVal × List Char)
  | 0, _ => none
  | Nat.succ fuel, cs =>
    match skipWs cs with
    | 'n' :: 'u' :: 'l' :: 'l' :: rest => some (.null, rest)
    | 't' :: 'r' :: 'u' :: 'e' :: rest => some (.bool true, rest)
    | 'f' :: 'a' :: 'l' :: 's' :: 'e' :: rest => some (.bool false, rest)
    | '\"' :: rest => (parseStringChars rest).map (fun p => (.str (String.mk p.1), p.2))
    | '[' :: rest =>
      (match skipWs rest with
       | ']' :: rest2 => some (.arr [], rest2)
       | _ => (parseArrItems fuel rest).map (fun p => (.arr p.1, p.2)))
    | '\x7b' :: rest =>
      (match skipWs rest with
       | '\x7d' :: rest2 => some (.obj [], rest2)
       | _ => (parseObjItems fuel rest).map
           (fun p => (.obj (p.1.foldl (fun acc kv => aset acc kv.1 kv.2) []), p.2)))
    | rest => (parseNumber rest).map (fun p => (.num p.1, p.2))

/-- Comma-separated array items up to the closing bracket. -/
def parseArrItems : ℕ → List Char → Option (List JVal × List Char)
  | 0, _ => none
  | Nat.succ fuel, cs =>
    match parseVal fuel cs with
    | none => none
    | some (v, rest) =>
      match skipWs rest with
      | ',' :: rest2 => (parseArrItems fuel rest2).map (fun p => (v :: p.1, p.2))
      | ']' :: rest2 => some ([v], rest2)
      | _ => none

/-- Comma-separated object members up to the closing brace. -/
def parseObjItems : ℕ → List Char → Option (List (String × JVal) × List Char)
  | 0, _ => none
  | Nat.succ fuel, cs =>
    match skipWs cs with
    | '\"' :: rest =>
      (match parseStringChars rest with
       | none => none
       | some (k, rest2) =>
         match skipWs rest2 with
         | ':' :: rest3 =>
           (match parseVal fuel rest3 with
            | none => none
            | some (v, rest4) =>
              match skipWs rest4 with
              | ',' :: rest5 =>
                (parseObjItems fuel rest5).map (fun p => ((String.mk k, v) :: p.1, p.2))
              | '\x7d' :: rest5 => some ([(String.mk k, v)], rest5)
              | _ => none)
         | _ => none)
    | _ => none

end

/-- json.loads: parse a complete document, allowing trailing whitespace only. -/
def jsonParse (s : String) : Option JVal :=
  match parseVal (2 * s.length + 2) s.toList with
  | some (v, rest) => if skipWs rest = [] then some v else none
  | none => none

/-! ### The extractor (_extract_meals_from_content, src/app.py lines 677-753) -/

/-- The wrapper keys tried in priority order (lines 693, 712, 743). -/
def wrapperKeys : List String := ["meals", "data", "items", "array", "output"]

/-- Parse-result unwrapping shared by strategies 1, 2 and 4: a list is taken
as-is, a dict yields the first wrapper key holding a list or is wrapped as a
one-element list, anything else is rejected. -/
def unwrapParsed : JVal → Option (List JVal)
  | .arr l => some l
  | .obj o =>
    match wrapperKeys.findSome? (fun k =>
      match aget o k with
      | some (.arr l) => some l
      | _ => none) with
    | some l => some l
    | none => some [.obj o]
  | _ => none

/-- Strategy 1: direct json.loads of the stripped text plus unwrapping. -/
def directParse (text : String) : Option (List JVal) :=
  (jsonParse text).bind unwrapParsed

/-- The backtick character. -/
def btick : Char := Char.ofNat 96

/-- Does the text start with a (case-insensitive) json code-fence opener? -/
def fenceOpenAt : List Char → Bool
  | a :: b :: c :: d :: e :: f :: g :: _ =>
    a == btick && b == btick && c == btick &&
    d.toLower == 'j' && e.toLower == 's' && f.toLower == 'o' && g.toLower == 'n'
  | _ => false

/-- Characters strictly before the first triple-backtick, if one occurs. -/
def closeSplit : List Char → Option (List Char)
  | a :: b :: c :: rest =>
    if a == btick && b == btick && c == btick then some []
    else (closeSplit (b :: c :: rest)).map (a :: ·)
  | _ => none

/-- The regex search of line 703: contents of the leftmost closed json code
fence. A lone unclosed opener means no match at all, since any later opener
would itself supply the missing closing backticks. -/
def findFence : List Char → Option (List Char)
  | [] => none
  | c :: cs =>
    if fenceOpenAt (c :: cs) then closeSplit ((c :: cs).drop 7)
    else findFence cs

/-- Strategy 2 (lines 702-718): parse the stripped fence contents, unwrapped. -/
def fencedParse (cs : List Char) : Option (List JVal) :=
  match findFence cs with
  | none => none
  | some inner => (jsonParse (pyStrip (String.mk inner))).bind unwrapParsed

/-- Index of the first occurrence of a character (str.find). -/
def firstIdx (c : Char) (cs : List Char) : Option ℕ := cs.findIdx? (· == c)

/-- Index of the last occurrence of a character (str.rfind). -/
def lastIdx (c : Char) (cs : List Char) : Option ℕ :=
  (cs.reverse.findIdx? (· == c)).map (fun i => cs.length - 1 - i)

/-- Strategy 3 (lines 720-730): slice from the first [ to the last ] and parse,
accepting only a list. -/
def arrSlice (cs : List Char) : Option (List JVal) :=
  match firstIdx '[' cs, lastIdx ']' cs with
  | some l, some r =>
    if l < r then
      match jsonParse (String.mk ((cs.drop l).take (r - l + 1))) with
      | some (.arr xs) => some xs
      | _ => none
    else none
  | _, _ => none

/-- Strategy 4 (lines 732-749): slice from the first brace to the last brace,
parse and unwrap. -/
def objSlice (cs : List Char) : Option (List JVal) :=
  match firstIdx '\x7b' cs, lastIdx '\x7d' cs with
  | some l, some r =>
    if l < r then
      match jsonParse (String.mk ((cs.drop l).take (r - l + 1))) with
      | some v => unwrapParsed v
      | none => none
    else none
  | _, _ => none

/-- The two failure modes of the extractor (both surfaced as HTTP 502). -/
inductive ExtErr : Type where
  | empty : ExtErr
  | malformed : String → ExtErr
deriving Repr

/-- The diagnostic snippet of line 752: the first 300 characters of the
stripped text, newlines replaced by spaces. -/
def snippet (text : String) : String :=
  String.mk ((text.toList.take 300).map (fun c => if c = '\n' then ' ' else c))

/-- _extract_meals_from_content from src/app.py (lines 677-753). -/
def extractMeals (content : String) : Except ExtErr (List JVal) :=
  let text := pyStrip content
  if text = "" then .error .empty
  else
    match directParse text with
    | some l => .ok l
    | none =>
    match fencedParse text.toList with
    | some l => .ok l
    | none =>
    match arrSlice text.toList with
    | some l => .ok l
    | none =>
    match objSlice text.toList with
    | some l => .ok l
    | none => .error (.malformed (snippet text))

/-- Did extraction fail? -/
def isErr : Except ExtErr (List JVal) → Bool
  | .error _ => true
  | .ok _ => false

/-- Is a JSON value a mapping? -/
def JVal.isObj : JVal → Bool
  | .obj _ => true
  | _ => false

/-! ### The cache (_cache_get and _cache_set, src/app.py lines 82-108) -/

/-- The module-level _cache_store / _cache_meta pair (lines 83-84). -/
structure CacheState (V : Type) where
  store : List (String × V)
  meta : List (String × ℚ)

/-- Timestamp order on meta entries (the sort key of line 105). -/
def tsLE (a b : String × ℚ) : Prop := a.2 ≤ b.2

instance : DecidableRel tsLE := fun a b => inferInstanceAs (Decidable (a.2 ≤ b.2))

instance : IsTotal (String × ℚ) tsLE := ⟨fun a b => le_total a.2 b.2⟩

instance : IsTrans (String × ℚ) tsLE := ⟨fun _ _ _ h1 h2 => le_trans h1 h2⟩

/-- The entries evicted by _cache_set (lines 104-105): the oldest
max(1, capacity // 10) entries by insertion timestamp. Python's sorted is
stable; insertionSort is a stable sort, so the models agree. -/
def evictList (meta : List (String × ℚ)) (cap : ℕ) : List (String × ℚ) :=
  (List.insertionSort tsLE meta).take (max 1 (cap / 10))

/-- _cache_get from src/app.py (lines 86-96): TTL lookup with expiry eviction
as a side effect, returning (result, new state). -/
def cacheGet {V : Type} (ttl : ℚ) (s : CacheState V) (key : String) (now : ℚ) :
    Option V × CacheState V :=
  match aget s.meta key with
  | none => (none, s)
  | some ts =>
    if now - ts > ttl then (none, ⟨adel s.store key, adel s.meta key⟩)
    else (aget s.store key, s)

/-- _cache_set from src/app.py (lines 98-108): insert with the current
timestamp, then batch-evict the oldest entries when over capacity. -/
def cacheSet {V : Type} (cap : ℕ) (s : CacheState V) (key : String) (v : V)
    (now : ℚ) : CacheState V :=
  let store := aset s.store key v
  let meta := aset s.meta key now
  if store.length > cap then
    let oldest := evictList meta cap
    ⟨oldest.foldl (fun st kv => adel st kv.1) store,
     oldest.foldl (fun mt kv => adel mt kv.1) meta⟩
  else ⟨store, meta⟩

/-- The invariant of the cache pair: both dicts hold the same keys (in the
same order), keys are unique, and the entry count is within capacity. -/
def CacheInv {V : Type} (cap : ℕ) (s : CacheState V) : Prop :=
  s.store.map Prod.fst = s.meta.map Prod.fst ∧
  (s.meta.map Prod.fst).Nodup ∧ s.store.length ≤ cap

/-! ### Association-list lemmas -/

section AssocLemmas

variable {α : Type}

lemma aget_aset (l : List (String × α)) (k j : String) (v : α) :
    aget (aset l k v) j = if j = k then some v else aget l j := by
  induction l with
  | nil =>
    simp only [aset, aget]
    by_cases h : j = k
    · subst h; simp
    · rw [if_neg (fun hh => h hh.symm), if_neg h]
  | cons hd tl ih =>
    obtain ⟨a, b⟩ := hd
    by_cases hk : a = k
    · subst hk
      simp only [aset, if_pos rfl, aget]
      by_cases hj : j = a
      · subst hj; simp
      · rw [if_neg (fun hh => hj hh.symm), if_neg hj,
          if_neg (fun hh => hj hh.symm)]
    · simp only [aset, if_neg hk, aget]
      by_cases hj : a = j
      · subst hj
        rw [if_pos rfl, if_neg hk, if_pos rfl]
      · rw [if_neg hj, ih]
        by_cases hjk : j = k
        · simp [hjk]
        · rw [if_neg hjk, if_neg hjk, if_neg hj]

lemma aget_aset_self (l : List (String × α)) (k : String) (v : α) :
    aget (aset l k v) k = some v := by
  simp [aget_aset]

lemma aget_aset_ne (l : List (String × α)) {k j : String} (v : α) (h : j ≠ k) :
    aget (aset l k v) j = aget l j := by
  simp [aget_aset, h]

lemma aset_aset_same (l : List (String × α)) (k : String) (v w : α) :
    aset (aset l k v) k w = aset l k w := by
  induction l with
  | nil => simp [aset]
  | cons hd tl ih =>
    by_cases hk : hd.1 = k <;> simp [aset, hk, ih]

lemma aset_eq_self_of_aget (l : List (String × α)) {k : String} {v : α}
    (h : aget l k = some v) : aset l k v = l := by
  induction l with
  | nil => simp [aget] at h
  | cons hd tl ih =>
    obtain ⟨a, b⟩ := hd
    by_cases hk : a = k
    · subst hk
      simp only [aget, if_pos rfl] at h
      have hb : b = v := Option.some.inj h
      simp [aset, hb]
    · simp only [aget, if_neg hk] at h
      simp [aset, hk, ih h]

lemma aset_ne_nil (l : List (String × α)) (k : String) (v : α) :
    aset l k v ≠ [] := by
  cases l with
  | nil => simp [aset]
  | cons hd tl =>
    by_cases hk : hd.1 = k <;> simp [aset, hk]

lemma map_fst_aset (l : List (String × α)) (k : String) (v : α) :
    (aset l k v).map Prod.fst =
      if k ∈ l.map Prod.fst then l.map Prod.fst else l.map Prod.fst ++ [k] := by
  induction l with
  | nil => simp [aset]
  | cons hd tl ih =>
    obtain ⟨a, b⟩ := hd
    by_cases hk : a = k
    · subst hk
      simp [aset]
    · simp only [aset, if_neg hk, List.map_cons, ih]
      have hka : k ≠ a := fun hh => hk hh.symm
      by_cases hm : k ∈ tl.map Prod.fst
      · rw [if_pos hm, if_pos (List.mem_cons_of_mem _ hm)]
      · rw [if_neg hm, if_neg (by
          intro hc
          rcases List.mem_cons.mp hc with hc | hc
          · exact hka hc
          · exact hm hc)]
        simp

lemma aset_of_not_mem (l : List (String × α)) {k : String} (v : α)
    (h : k ∉ l.map Prod.fst) : aset l k v = l ++ [(k, v)] := by
  induction l with
  | nil => simp [aset]
  | cons hd tl ih =>
    have h1 : ¬ hd.1 = k := by
      intro hh
      exact h (by simp [← hh])
    have h2 : k ∉ tl.map Prod.fst := by
      intro hh
      exact h (List.mem_cons_of_mem _ hh)
    simp [aset, h1, ih h2]

lemma aset_length_le (l : List (String × α)) (k : String) (v : α) :
    (aset l k v).length ≤ l.length + 1 := by
  induction l with
  | nil => simp [aset]
  | cons hd tl ih =>
    by_cases hk : hd.1 = k <;> simp [aset, hk]
    omega

lemma aset_length_of_mem (l : List (String × α)) {k : String} (v : α)
    (h : k ∈ l.map Prod.fst) : (aset l k v).length = l.length := by
  induction l with
  | nil => simp at h
  | cons hd tl ih =>
    by_cases hk : hd.1 = k
    · simp [aset, hk]
    · rcases List.mem_cons.mp h with h1 | h1
      · exact absurd h1.symm hk
      · simp [aset, hk, ih h1]

lemma adel_cons (hd : String × α) (tl : List (String × α)) (k : String) :
    adel (hd :: tl) k = if hd.1 = k then adel tl k else hd :: adel tl k := by
  by_cases hk : hd.1 = k <;>
    simp [adel, List.filter_cons, hk]

lemma map_fst_adel (l : List (String × α)) (k : String) :
    (adel l k).map Prod.fst = (l.map Prod.fst).filter (fun x => x ≠ k) := by
  induction l with
  | nil => simp [adel]
  | cons hd tl ih =>
    rw [adel_cons]
    by_cases hk : hd.1 = k <;>
      simp [hk, List.filter_cons, ih]

lemma adel_length_le (l : List (String × α)) (k : String) :
    (adel l k).length ≤ l.length :=
  List.length_filter_le _ _

lemma adel_length_lt (l : List (String × α)) {k : String}
    (h : k ∈ l.map Prod.fst) : (adel l k).length < l.length := by
  induction l with
  | nil => simp at h
  | cons hd tl ih =>
    rw [adel_cons]
    by_cases hk : hd.1 = k
    · have := adel_length_le tl k
      simp only [if_pos hk, List.length_cons]
      omega
    · rcases List.mem_cons.mp h with h1 | h1
      · exact absurd h1.symm hk
      · have := ih h1
        simp only [if_neg hk, List.length_cons]
        omega

lemma aget_adel_ne (l : List (String × α)) {k j : String} (h : j ≠ k) :
    aget (adel l k) j = aget l j := by
  induction l with
  | nil => simp [adel]
  | cons hd tl ih =>
    rw [adel_cons]
    by_cases hk : hd.1 = k
    · have h1 : ¬ hd.1 = j := fun hh => h (hh ▸ hk ▸ rfl : j = k)
      rw [if_pos hk, ih]
      simp [aget, h1]
    · rw [if_neg hk]
      simp only [aget]
      by_cases hj : hd.1 = j
      · rw [if_pos hj, if_pos hj]
      · rw [if_neg hj, if_neg hj, ih]

end AssocLemmas

/-! ### Rounding and coercion lemmas -/

lemma rhe_intCast (z : ℤ) : rhe (z : ℚ) = z := by
  simp [rhe, Int.floor_intCast]

lemma rhe_nonneg {q : ℚ} (h : 0 ≤ q) : 0 ≤ rhe q := by
  have hf : (0 : ℤ) ≤ ⌊q⌋ := Int.le_floor.mpr (by exact_mod_cast h)
  unfold rhe
  split_ifs <;> omega

lemma roundTo_nonneg {q : ℚ} (d : ℕ) (h : 0 ≤ q) : 0 ≤ roundTo d q := by
  unfold roundTo
  apply div_nonneg
  · exact_mod_cast rhe_nonneg (by positivity)
  · positivity

lemma dec1_roundTo1 (q : ℚ) : Dec1 (roundTo 1 q) := by
  refine ⟨rhe (q * 10 ^ 1), ?_⟩
  simp [roundTo]

lemma roundTo1_eq_of_dec1 {q : ℚ} (h : Dec1 q) : roundTo 1 q = q := by
  obtain ⟨z, rfl⟩ := h
  have h10 : ((z : ℚ) / 10) * 10 ^ 1 = (z : ℚ) := by
    field_simp
  rw [roundTo, h10, rhe_intCast]
  norm_num

lemma dec1_zero : Dec1 0 := ⟨0, by norm_num⟩

lemma dec1_sub {a b : ℚ} (ha : Dec1 a) (hb : Dec1 b) : Dec1 (a - b) := by
  obtain ⟨x, rfl⟩ := ha
  obtain ⟨y, rfl⟩ := hb
  exact ⟨x - y, by push_cast; ring⟩

lemma dec1_ite {c : Prop} [Decidable c] {a b : ℚ} (ha : Dec1 a) (hb : Dec1 b) :
    Dec1 (if c then a else b) := by
  split_ifs <;> assumption

lemma truncQ_intCast (z : ℤ) : truncQ (z : ℚ) = z := by
  unfold truncQ
  split_ifs with h
  · exact Int.floor_intCast z
  · rw [← Int.cast_neg, Int.floor_intCast]
    omega

/-- On a nonnegative coerced value, _safe_num yields a nonnegative result. -/
lemma safeNum_nonneg (x : Option JVal) (d : ℕ) :
    0 ≤ safeNum x (some d) true := by
  unfold safeNum
  cases pyFloatO x with
  | none => norm_num
  | some val =>
    simp only
    by_cases h : val < 0
    · simp [h]
      exact roundTo_nonneg d le_rfl
    · simp [h]
      exact roundTo_nonneg d (le_of_not_lt h)

/-- _safe_num with one decimal place produces a one-decimal value. -/
lemma safeNum_dec1 (x : Option JVal) (b : Bool) :
    Dec1 (safeNum x (some 1) b) := by
  unfold safeNum
  cases pyFloatO x with
  | none => exact dec1_zero
  | some val =>
    simp only
    exact dec1_roundTo1 _

/-- _safe_num is the identity on already-normalized numbers: nonnegative
one-decimal numeric values pass through unchanged. -/
lemma safeNum_fixed {q : ℚ} (h0 : 0 ≤ q) (h1 : Dec1 q) :
    safeNum (some (.num q)) (some 1) true = q := by
  unfold safeNum pyFloatO pyFloat
  simp only [not_lt.mpr h0, decide_eq_true_eq]
  rw [if_neg (by simp [not_lt.mpr h0, decide_eq_false (not_lt.mpr h0)])]
  exact roundTo1_eq_of_dec1 h1

lemma coerce1_nonneg (o : JObj) (k : String) : 0 ≤ coerce1 o k :=
  safeNum_nonneg _ _

lemma coerce1_dec1 (o : JObj) (k : String) : Dec1 (coerce1 o k) :=
  safeNum_dec1 _ _

lemma coerce1_num {q : ℚ} (o : JObj) (k : String) (hk : aget o k = some (.num q))
    (h0 : 0 ≤ q) (h1 : Dec1 q) : coerce1 o k = q := by
  rw [coerce1, hk, safeNum_fixed h0 h1]

/-! ### Structure of a successful normalization -/

lemma orEmptyObj_obj (o : JObj) :
    orEmptyObj (some (.obj o)) = .ok (if o.isEmpty then [] else o) := by
  unfold orEmptyObj JVal.falsy
  by_cases h : o.isEmpty <;> simp [h]

lemma orEmptyObj_obj_ne {o : JObj} (h : o ≠ []) :
    orEmptyObj (some (.obj o)) = .ok o := by
  rw [orEmptyObj_obj, if_neg (by simpa [List.isEmpty_iff] using h)]

lemma aget_fixName_ne (m : JObj) (nm : String) {k : String} (hk : k ≠ "mealName") :
    aget (fixName m nm) k = aget m k := by
  unfold fixName
  split_ifs with h
  · exact aget_aset_ne _ _ hk
  · rfl

/-- A successful run of _normalize_meal decomposes into its five coercion
steps, and the output's macros and servingSize dicts are the rebuilt ones. -/
lemma normalizeMeal_fields {m r : JObj} (h : normalizeMeal m = .ok r) :
    ∃ ma ca fa ss,
      orEmptyObj (aget m "macros") = .ok ma ∧
      orEmptyObj (aget ma "carbohydrates") = .ok ca ∧
      orEmptyObj (aget ma "fat") = .ok fa ∧
      orEmptyObj (aget m "servingSize") = .ok ss ∧
      aget r "macros" = some (JVal.obj (macrosOut ma ca fa)) ∧
      aget r "servingSize" = some (JVal.obj (servingOut ss)) := by
  unfold normalizeMeal at h
  cases h1 : orEmptyObj (aget m "macros") with
  | error e => rw [h1] at h; cases h
  | ok ma =>
  rw [h1] at h
  dsimp only [] at h
  cases h2 : orEmptyObj (aget ma "carbohydrates") with
  | error e => rw [h2] at h; cases h
  | ok ca =>
  rw [h2] at h
  dsimp only [] at h
  cases h3 : orEmptyObj (aget ma "fat") with
  | error e => rw [h3] at h; cases h
  | ok fa =>
  rw [h3] at h
  dsimp only [] at h
  rw [aget_aset_ne _ _ (by decide : "servingSize" ≠ "macros")] at h
  cases h4 : orEmptyObj (aget m "servingSize") with
  | error e => rw [h4] at h; cases h
  | ok ss =>
  rw [h4] at h
  dsimp only [] at h
  cases h5 : orEmptyStr (aget (aset (aset m "macros" (JVal.obj (macrosOut ma ca fa)))
      "servingSize" (JVal.obj (servingOut ss))) "mealName") with
  | error e => rw [h5] at h; cases h
  | ok nm =>
  rw [h5] at h
  dsimp only [] at h
  refine ⟨ma, ca, fa, ss, rfl, h2, h3, rfl, ?_, ?_⟩
  · have hr : r = fixName (aset (aset m "macros" (JVal.obj (macrosOut ma ca fa)))
        "servingSize" (JVal.obj (servingOut ss))) nm := (Except.ok.inj h).symm
    rw [hr, aget_fixName_ne _ _ (by decide),
      aget_aset_ne _ _ (by decide : "macros" ≠ "servingSize"), aget_aset_self]
  · have hr : r = fixName (aset (aset m "macros" (JVal.obj (macrosOut ma ca fa)))
        "servingSize" (JVal.obj (servingOut ss))) nm := (Except.ok.inj h).symm
    rw [hr, aget_fixName_ne _ _ (by decide), aget_aset_self]

/-! ### Arithmetic helper lemmas for the macro invariants -/

lemma clamp_nonneg {a b : ℚ} (ha : 0 ≤ a) (hb : 0 ≤ b) :
    0 ≤ if a > b then b else a := by
  split_ifs <;> assumption

lemma clamp_le {a b : ℚ} : (if a > b then b else a) ≤ b := by
  split_ifs with h
  · exact le_rfl
  · exact not_lt.mp h

lemma posPart_nonneg (x : ℚ) : 0 ≤ if x < 0 then 0 else x := by
  split_ifs with h
  · exact le_rfl
  · exact not_lt.mp h

lemma dec1_clamp {a b : ℚ} (ha : Dec1 a) (hb : Dec1 b) :
    Dec1 (if a > b then b else a) := by
  split_ifs <;> assumption

/-- round(·, 1) of the clamped net-carb value is exactly max(·, 0) when the
inputs are one-decimal values. -/
lemma net_eq_max {ct fi sA al : ℚ} (hct : Dec1 ct) (hfi : Dec1 fi)
    (hsA : Dec1 sA) (hal : Dec1 al) :
    roundTo 1 (if ct - fi - sA - al < 0 then 0 else ct - fi - sA - al) =
      max (ct - fi - sA - al) 0 := by
  have hd : Dec1 (ct - fi - sA - al) :=
    dec1_sub (dec1_sub (dec1_sub hct hfi) hsA) hal
  rw [roundTo1_eq_of_dec1 (dec1_ite dec1_zero hd)]
  split_ifs with h
  · exact (max_eq_right h.le).symm
  · exact (max_eq_left (not_lt.mp h)).symm

/-! ### Claim statements about normalized records -/

/-- The 4-4-9 calorie invariant, stated on the output record's own coerced
and clamped protein, carbohydrate-total and fat-total values. -/
def CaloriesRule (r : JObj) : Prop :=
  fieldQ (macrosOf r) "calories" =
    ((rhe (4 * (fieldQ (macrosOf r) "protein" + fieldQ (carbsOf r) "total") +
      9 * fieldQ (fatOf r) "total") : ℤ) : ℚ)

/-- Overwriting the supplied macros.calories value never changes the
normalizer's result. -/
def CaloriesInsensitive (m : JObj) : Prop :=
  ∀ mo v, aget m "macros" = some (JVal.obj mo) →
    normalizeMeal (aset m "macros" (JVal.obj (aset mo "calories" v))) = normalizeMeal m

/-- The net-carb invariant, stated on the output record's own coerced and
clamped field values. -/
def NetRule (r : JObj) : Prop :=
  fieldQ (carbsOf r) "net" =
    max (fieldQ (carbsOf r) "total" - fieldQ (carbsOf r) "fiber" -
      fieldQ (carbsOf r) "sugarAlcohols" - fieldQ (carbsOf r) "allulose") 0

/-- Non-negativity of all sixteen numeric macro fields plus the three clamp
inequalities. -/
def MacroInvariants (r : JObj) : Prop :=
  0 ≤ fieldQ (macrosOf r) "calories" ∧ 0 ≤ fieldQ (macrosOf r) "protein" ∧
  0 ≤ fieldQ (carbsOf r) "total" ∧ 0 ≤ fieldQ (carbsOf r) "net" ∧
  0 ≤ fieldQ (carbsOf r) "fiber" ∧ 0 ≤ fieldQ (carbsOf r) "sugar" ∧
  0 ≤ fieldQ (carbsOf r) "addedSugar" ∧ 0 ≤ fieldQ (carbsOf r) "sugarAlcohols" ∧
  0 ≤ fieldQ (carbsOf r) "allulose" ∧
  0 ≤ fieldQ (fatOf r) "total" ∧ 0 ≤ fieldQ (fatOf r) "saturated" ∧
  0 ≤ fieldQ (fatOf r) "monounsaturated" ∧ 0 ≤ fieldQ (fatOf r) "polyunsaturated" ∧
  0 ≤ fieldQ (fatOf r) "omega3" ∧ 0 ≤ fieldQ (fatOf r) "omega6" ∧
  0 ≤ fieldQ (fatOf r) "cholesterol" ∧
  fieldQ (carbsOf r) "sugar" ≤ fieldQ (carbsOf r) "total" ∧
  fieldQ (carbsOf r) "fiber" ≤ fieldQ (carbsOf r) "total" ∧
  fieldQ (fatOf r) "saturated" ≤ fieldQ (fatOf r) "total"

lemma caloriesRule_of_macros {r ma ca fa : JObj}
    (hm : aget r "macros" = some (JVal.obj (macrosOut ma ca fa))) :
    CaloriesRule r := by
  unfold CaloriesRule fatOf carbsOf macrosOf
  rw [hm]
  simp only [macrosOut, fieldQ, aget, asNum, asObj, recomputeCalories, if_true,
    if_false, String.reduceEq, reduceIte]

lemma netRule_of_macros {r ma ca fa : JObj}
    (hm : aget r "macros" = some (JVal.obj (macrosOut ma ca fa))) :
    NetRule r := by
  unfold NetRule carbsOf macrosOf
  rw [hm]
  simp only [macrosOut, fieldQ, aget, asNum, asObj, if_true, if_false,
    String.reduceEq, reduceIte]
  exact net_eq_max (coerce1_dec1 _ _)
    (dec1_clamp (coerce1_dec1 _ _) (coerce1_dec1 _ _))
    (coerce1_dec1 _ _) (coerce1_dec1 _ _)

lemma macroInvariants_of_macros {r ma ca fa : JObj}
    (hm : aget r "macros" = some (JVal.obj (macrosOut ma ca fa))) :
    MacroInvariants r := by
  unfold MacroInvariants fatOf carbsOf macrosOf
  rw [hm]
  simp only [macrosOut, fieldQ, aget, asNum, asObj, if_true, if_false,
    String.reduceEq, reduceIte]
  refine ⟨?_, ?_, ?_, ?_, ?_, ?_, ?_, ?_, ?_, ?_, ?_, ?_, ?_, ?_, ?_, ?_, ?_, ?_, ?_⟩
  · have hp := coerce1_nonneg ma "protein"
    have hct := coerce1_nonneg ca "total"
    have hft := coerce1_nonneg fa "total"
    have h0 : (0 : ℚ) ≤ 4 * (coerce1 ma "protein" + coerce1 ca "total") +
        9 * coerce1 fa "total" := by linarith
    unfold recomputeCalories
    exact_mod_cast rhe_nonneg h0
  · exact coerce1_nonneg _ _
  · exact coerce1_nonneg _ _
  · exact roundTo_nonneg _ (posPart_nonneg _)
  · exact clamp_nonneg (coerce1_nonneg _ _) (coerce1_nonneg _ _)
  · exact clamp_nonneg (coerce1_nonneg _ _) (coerce1_nonneg _ _)
  · exact coerce1_nonneg _ _
  · exact coerce1_nonneg _ _
  · exact coerce1_nonneg _ _
  · exact coerce1_nonneg _ _
  · exact clamp_nonneg (coerce1_nonneg _ _) (coerce1_nonneg _ _)
  · exact coerce1_nonneg _ _
  · exact coerce1_nonneg _ _
  · exact coerce1_nonneg _ _
  · exact coerce1_nonneg _ _
  · exact coerce1_nonneg _ _
  · exact clamp_le
  · exact clamp_le
  · exact clamp_le

lemma macrosOut_congr_left {ma ma2 : JObj} (h : aget ma "protein" = aget ma2 "protein") :
    macrosOut ma = macrosOut ma2 := by
  funext ca fa
  unfold macrosOut coerce1
  rw [h]

/-- C1: for every input mapping, the normalizer's output has macros.calories
equal to round(4 × (protein + carbohydrates.total) + 9 × fat.total) computed
from the coerced-and-clamped protein, carbohydrate-total and fat-total values
of the output, and the supplied macros.calories value never influences the
result. -/
theorem calories_rule_449 (m : JObj) :
    (∀ r, normalizeMeal m = .ok r → CaloriesRule r) ∧ CaloriesInsensitive m := by
  constructor
  · intro r h
    obtain ⟨ma, ca, fa, ss, _, _, _, _, hm, _⟩ := normalizeMeal_fields h
    exact caloriesRule_of_macros hm
  · intro mo v hmo
    have hX : orEmptyObj (aget (aset m "macros" (JVal.obj (aset mo "calories" v))) "macros")
        = .ok (aset mo "calories" v) := by
      rw [aget_aset_self]
      exact orEmptyObj_obj_ne (aset_ne_nil _ _ _)
    have hR : orEmptyObj (aget m "macros") = .ok (if mo.isEmpty then [] else mo) := by
      rw [hmo, orEmptyObj_obj]
    have hag : ∀ k : String, k ≠ "calories" →
        aget (aset mo "calories" v) k = aget (if mo.isEmpty then [] else mo) k := by
      intro k hk
      rw [aget_aset_ne _ _ hk]
      by_cases h0 : mo.isEmpty
      · rw [if_pos h0, List.isEmpty_iff.mp h0]
      · rw [if_neg h0]
    have hmac : macrosOut (aset mo "calories" v) =
        macrosOut (if mo.isEmpty then [] else mo) :=
      macrosOut_congr_left (hag "protein" (by decide))
    unfold normalizeMeal
    rw [hX, hR]
    dsimp only []
    simp only [hag "carbohydrates" (by decide), hag "fat" (by decide), hmac,
      aset_aset_same]

/-- Witness for C1 at a concrete input: calories 999 supplied, overridden. -/
def mEx1 : JObj := [("macros", JVal.obj [("calories", JVal.num 999), ("protein", JVal.num 3)])]

theorem calories_rule_449_witness :
    CaloriesRule (okD (normalizeMeal mEx1)) ∧
    normalizeMeal (aset mEx1 "macros" (JVal.obj
      (aset [("calories", JVal.num 999), ("protein", JVal.num 3)] "calories" (JVal.num 5)))) =
      normalizeMeal mEx1 :=
  ⟨(calories_rule_449 mEx1).1 _ rfl, (calories_rule_449 mEx1).2 _ (JVal.num 5) rfl⟩

/-- C2: for every input mapping, the normalizer's output satisfies
carbohydrates.net = max(total − fiber − sugarAlcohols − allulose, 0) computed
from the coerced and clamped output field values. -/
theorem net_carbs_formula (m r : JObj) (h : normalizeMeal m = .ok r) : NetRule r := by
  obtain ⟨ma, ca, fa, ss, _, _, _, _, hm, _⟩ := normalizeMeal_fields h
  exact netRule_of_macros hm

/-- Witness input for C2: fiber exceeding total and a non-numeric protein. -/
def mEx2 : JObj := [("macros", JVal.obj [("protein", JVal.str "oops"),
  ("carbohydrates", JVal.obj [("total", JVal.num 50), ("fiber", JVal.num 60)])])]

theorem net_carbs_formula_witness : NetRule (okD (normalizeMeal mEx2)) :=
  net_carbs_formula mEx2 _ rfl

/-- C3: every numeric macro field of the normalizer's output is non-negative
and the clamp inequalities sugar ≤ total, fiber ≤ total, saturated ≤ fat.total
hold. -/
theorem macro_invariants_hold (m r : JObj) (h : normalizeMeal m = .ok r) :
    MacroInvariants r := by
  obtain ⟨ma, ca, fa, ss, _, _, _, _, hm, _⟩ := normalizeMeal_fields h
  exact macroInvariants_of_macros hm

/-- Witness input for C3: the worked scenario of the specification (negative
protein, fiber 60 over total 50, saturated 20 over fat total 10). -/
def mEx3 : JObj := [("macros", JVal.obj [("protein", JVal.num (-5)),
  ("carbohydrates", JVal.obj [("total", JVal.num 50), ("fiber", JVal.num 60)]),
  ("fat", JVal.obj [("total", JVal.num 10), ("saturated", JVal.num 20)])])]

theorem macro_invariants_hold_witness : MacroInvariants (okD (normalizeMeal mEx3)) :=
  macro_invariants_hold mEx3 _ rfl

/-! ### Idempotence of the normalizer (C4) -/

lemma safeNum_safeNum (x : Option JVal) :
    safeNum (some (.num (safeNum x (some 1) true))) (some 1) true =
      safeNum x (some 1) true :=
  safeNum_fixed (safeNum_nonneg _ _) (safeNum_dec1 _ _)

lemma safeNum_clampRead (x y : Option JVal) :
    safeNum (some (.num (if safeNum x (some 1) true > safeNum y (some 1) true
      then safeNum y (some 1) true else safeNum x (some 1) true))) (some 1) true =
      (if safeNum x (some 1) true > safeNum y (some 1) true
        then safeNum y (some 1) true else safeNum x (some 1) true) :=
  safeNum_fixed (clamp_nonneg (safeNum_nonneg _ _) (safeNum_nonneg _ _))
    (dec1_clamp (safeNum_dec1 _ _) (safeNum_dec1 _ _))

lemma clamp_idem (a b : ℚ) :
    (if (if a > b then b else a) > b then b else if a > b then b else a) =
      if a > b then b else a :=
  if_neg (not_lt.mpr clamp_le)

/-- Renormalizing the rebuilt macros dict is a no-op. -/
lemma macrosOut_idem (ma ca fa : JObj) :
    macrosOut (macrosOut ma ca fa)
      (asObj (aget (macrosOut ma ca fa) "carbohydrates"))
      (asObj (aget (macrosOut ma ca fa) "fat")) = macrosOut ma ca fa := by
  unfold macrosOut coerce1
  simp only [aget, asObj, String.reduceEq, reduceIte, if_true, if_false,
    safeNum_safeNum, safeNum_clampRead, clamp_idem]

lemma truncQ_cast_roundtrip (z : ℤ) :
    ((pyInt (JVal.num (z : ℚ))).getD 1) = z := by
  simp [pyInt, truncQ_intCast]

/-- Renormalizing the rebuilt servingSize dict is a no-op. -/
lemma servingOut_idem (ss : JObj) : servingOut (servingOut ss) = servingOut ss := by
  unfold servingOut
  simp only [aget, String.reduceEq, reduceIte, if_true, if_false, Option.getD,
    pyInt, pyFloat, Option.map, truncQ_intCast]

lemma macrosOut_ne_nil (ma ca fa : JObj) : macrosOut ma ca fa ≠ [] := by
  simp [macrosOut]

lemma servingOut_ne_nil (ss : JObj) : servingOut ss ≠ [] := by
  simp [servingOut]

/-- Full decomposition of a successful run of _normalize_meal. -/
lemma normalizeMeal_shape {m r : JObj} (h : normalizeMeal m = .ok r) :
    ∃ ma ca fa ss nm,
      orEmptyObj (aget m "macros") = .ok ma ∧
      orEmptyObj (aget ma "carbohydrates") = .ok ca ∧
      orEmptyObj (aget ma "fat") = .ok fa ∧
      orEmptyObj (aget m "servingSize") = .ok ss ∧
      orEmptyStr (aget (aset (aset m "macros" (JVal.obj (macrosOut ma ca fa)))
        "servingSize" (JVal.obj (servingOut ss))) "mealName") = .ok nm ∧
      r = fixName (aset (aset m "macros" (JVal.obj (macrosOut ma ca fa)))
        "servingSize" (JVal.obj (servingOut ss))) nm := by
  unfold normalizeMeal at h
  cases h1 : orEmptyObj (aget m "macros") with
  | error e => rw [h1] at h; cases h
  | ok ma =>
  rw [h1] at h
  dsimp only [] at h
  cases h2 : orEmptyObj (aget ma "carbohydrates") with
  | error e => rw [h2] at h; cases h
  | ok ca =>
  rw [h2] at h
  dsimp only [] at h
  cases h3 : orEmptyObj (aget ma "fat") with
  | error e => rw [h3] at h; cases h
  | ok fa =>
  rw [h3] at h
  dsimp only [] at h
  rw [aget_aset_ne _ _ (by decide : "servingSize" ≠ "macros")] at h
  cases h4 : orEmptyObj (aget m "servingSize") with
  | error e => rw [h4] at h; cases h
  | ok ss =>
  rw [h4] at h
  dsimp only [] at h
  cases h5 : orEmptyStr (aget (aset (aset m "macros" (JVal.obj (macrosOut ma ca fa)))
      "servingSize" (JVal.obj (servingOut ss))) "mealName") with
  | error e => rw [h5] at h; cases h
  | ok nm =>
  rw [h5] at h
  dsimp only [] at h
  exact ⟨ma, ca, fa, ss, nm, rfl, h2, h3, rfl, h5, (Except.ok.inj h).symm⟩

/-! ### str.split() facts for the meal-name truncation -/

lemma takeWord_fst_append_snd : ∀ cs : List Char, (takeWord cs).1 ++ (takeWord cs).2 = cs := by
  intro cs
  induction cs with
  | nil => simp [takeWord]
  | cons c cs ih =>
    by_cases h : c.isWhitespace <;> simp [takeWord, h, ih]

lemma takeWord_fst_nonws : ∀ cs : List Char, ∀ c ∈ (takeWord cs).1, c.isWhitespace = false := by
  intro cs
  induction cs with
  | nil => simp [takeWord]
  | cons c cs ih =>
    by_cases h : c.isWhitespace
    · simp [takeWord, h]
    · intro d hd
      simp only [takeWord, h, Bool.false_eq_true, if_false] at hd
      rcases List.mem_cons.mp hd with rfl | hd2
      · exact Bool.eq_false_iff.mpr h
      · exact ih d hd2

lemma takeWord_snd_shape : ∀ cs : List Char,
    (takeWord cs).2 = [] ∨ ∃ d t, (takeWord cs).2 = d :: t ∧ d.isWhitespace = true := by
  intro cs
  induction cs with
  | nil => left; simp [takeWord]
  | cons c cs ih =>
    by_cases h : c.isWhitespace
    · right; exact ⟨c, cs, by simp [takeWord, h], h⟩
    · simpa [takeWord, h] using ih

lemma takeWord_of_append (w rest : List Char) (hw : ∀ c ∈ w, c.isWhitespace = false)
    (hr : rest = [] ∨ ∃ d t, rest = d :: t ∧ d.isWhitespace = true) :
    takeWord (w ++ rest) = (w, rest) := by
  induction w with
  | nil =>
    rcases hr with rfl | ⟨d, t, rfl, hd⟩
    · simp [takeWord]
    · simp [takeWord, hd]
  | cons c w ih =>
    have hc := hw c (List.mem_cons_self _ _)
    have ih2 := ih (fun d hd => hw d (List.mem_cons_of_mem _ hd))
    show takeWord (c :: (w ++ rest)) = (c :: w, rest)
    simp [takeWord, hc, ih2]

lemma wordsOf_all_ws : ∀ ys : List Char, (∀ c ∈ ys, c.isWhitespace = true) →
    wordsOf ys = [] := by
  intro ys
  induction ys with
  | nil => intro h; simp [wordsOf]
  | cons c t ih =>
    intro h
    have hc := h c (List.mem_cons_self _ _)
    simp only [wordsOf, hc, if_true]
    exact ih (fun d hd => h d (List.mem_cons_of_mem _ hd))

lemma wordsOf_mem : ∀ cs : List Char, ∀ w ∈ wordsOf cs,
    w ≠ [] ∧ ∀ c ∈ w, c.isWhitespace = false := by
  have main : ∀ n (cs : List Char), cs.length ≤ n → ∀ w ∈ wordsOf cs,
      w ≠ [] ∧ ∀ c ∈ w, c.isWhitespace = false := by
    intro n
    induction n with
    | zero =>
      intro cs hcs w hw
      have : cs = [] := List.length_eq_zero.mp (Nat.le_zero.mp hcs)
      subst this
      simp [wordsOf] at hw
    | succ n ih =>
      intro cs hcs w hw
      cases cs with
      | nil => simp [wordsOf] at hw
      | cons c t =>
        simp only [List.length_cons, Nat.succ_le_succ_iff] at hcs
        by_cases h : c.isWhitespace
        · simp only [wordsOf, h, if_true] at hw
          exact ih t hcs w hw
        · simp only [wordsOf, h, Bool.false_eq_true, if_false] at hw
          rcases List.mem_cons.mp hw with rfl | hw2
          · refine ⟨List.cons_ne_nil _ _, ?_⟩
            intro d hd
            rcases List.mem_cons.mp hd with rfl | hd2
            · exact Bool.eq_false_iff.mpr h
            · exact takeWord_fst_nonws t d hd2
          · exact ih (takeWord t).2 (le_trans (takeWord_snd_le t) hcs) w hw2
  exact fun cs => main cs.length cs le_rfl

lemma wordsOf_append_ws : ∀ cs ys : List Char, (∀ c ∈ ys, c.isWhitespace = true) →
    wordsOf (cs ++ ys) = wordsOf cs := by
  have main : ∀ n (cs ys : List Char), cs.length ≤ n →
      (∀ c ∈ ys, c.isWhitespace = true) → wordsOf (cs ++ ys) = wordsOf cs := by
    intro n
    induction n with
    | zero =>
      intro cs ys hcs hys
      have : cs = [] := List.length_eq_zero.mp (Nat.le_zero.mp hcs)
      subst this
      simpa [wordsOf] using wordsOf_all_ws ys hys
    | succ n ih =>
      intro cs ys hcs hys
      cases cs with
      | nil => simpa [wordsOf] using wordsOf_all_ws ys hys
      | cons c t =>
        simp only [List.length_cons, Nat.succ_le_succ_iff] at hcs
        by_cases h : c.isWhitespace
        · simp only [List.cons_append, wordsOf, h, if_true]
          exact ih t ys hcs hys
        · simp only [List.cons_append, wordsOf, h, Bool.false_eq_true, if_false]
          have htw : takeWord (t ++ ys) = ((takeWord t).1, (takeWord t).2 ++ ys) := by
            conv_lhs => rw [← takeWord_fst_append_snd t, List.append_assoc]
            apply takeWord_of_append _ _ (takeWord_fst_nonws t)
            rcases takeWord_snd_shape t with hnil | ⟨d, u, hdu, hd⟩
            · rw [hnil, List.nil_append]
              cases ys with
              | nil => left; rfl
              | cons y ys2 => right; exact ⟨y, ys2, rfl, hys y (List.mem_cons_self _ _)⟩
            · right
              rw [hdu]
              exact ⟨d, u ++ ys, by simp, hd⟩
          rw [htw]
          simp only []
          congr 1
          exact ih (takeWord t).2 ys (le_trans (takeWord_snd_le t) hcs) hys
  exact fun cs ys => main cs.length cs ys le_rfl

lemma wordsOf_dropWhile : ∀ cs : List Char,
    wordsOf (cs.dropWhile Char.isWhitespace) = wordsOf cs := by
  intro cs
  induction cs with
  | nil => simp
  | cons c t ih =>
    by_cases h : c.isWhitespace
    · rw [List.dropWhile_cons]
      simp only [h, if_true, ih]
      simp [wordsOf, h]
    · rw [List.dropWhile_cons]
      simp [h]

lemma wordsOf_stripChars (cs : List Char) : wordsOf (stripChars cs) = wordsOf cs := by
  unfold stripChars
  have hsplit : cs.dropWhile Char.isWhitespace =
      ((cs.dropWhile Char.isWhitespace).reverse.dropWhile Char.isWhitespace).reverse ++
      ((cs.dropWhile Char.isWhitespace).reverse.takeWhile Char.isWhitespace).reverse := by
    conv_lhs => rw [← List.reverse_reverse (cs.dropWhile Char.isWhitespace),
      ← List.takeWhile_append_dropWhile (p := Char.isWhitespace)
        (l := (cs.dropWhile Char.isWhitespace).reverse)]
    rw [List.reverse_append]
  have hws : ∀ c ∈ ((cs.dropWhile Char.isWhitespace).reverse.takeWhile
      Char.isWhitespace).reverse, c.isWhitespace = true := by
    intro c hc
    exact List.mem_takeWhile_imp (List.mem_reverse.mp hc)
  calc wordsOf (((cs.dropWhile Char.isWhitespace).reverse.dropWhile Char.isWhitespace).reverse)
      = wordsOf (((cs.dropWhile Char.isWhitespace).reverse.dropWhile
          Char.isWhitespace).reverse ++
        ((cs.dropWhile Char.isWhitespace).reverse.takeWhile Char.isWhitespace).reverse) :=
        (wordsOf_append_ws _ _ hws).symm
    _ = wordsOf (cs.dropWhile Char.isWhitespace) := by rw [← hsplit]
    _ = wordsOf cs := wordsOf_dropWhile cs

lemma wordsOf_joinWords : ∀ ws : List (List Char),
    (∀ w ∈ ws, w ≠ [] ∧ ∀ c ∈ w, c.isWhitespace = false) →
    wordsOf (joinWords ws) = ws := by
  intro ws
  induction ws with
  | nil => intro _; simp [joinWords, wordsOf]
  | cons w ws ih =>
    intro h
    obtain ⟨hw0, hwc⟩ := h w (List.mem_cons_self _ _)
    obtain ⟨c, w1, rfl⟩ := List.exists_cons_of_ne_nil hw0
    have hc : c.isWhitespace = false := hwc c (List.mem_cons_self _ _)
    have hw1 : ∀ d ∈ w1, d.isWhitespace = false :=
      fun d hd => hwc d (List.mem_cons_of_mem _ hd)
    cases ws with
    | nil =>
      show wordsOf (c :: w1) = [c :: w1]
      simp only [wordsOf, hc, Bool.false_eq_true, if_false]
      rw [show takeWord w1 = (w1, ([] : List Char)) from by
        simpa using takeWord_of_append w1 [] hw1 (Or.inl rfl)]
      simp [wordsOf]
    | cons w2 ws2 =>
      show wordsOf (c :: (w1 ++ ' ' :: joinWords (w2 :: ws2))) = (c :: w1) :: w2 :: ws2
      simp only [wordsOf, hc, Bool.false_eq_true, if_false]
      rw [takeWord_of_append w1 (' ' :: joinWords (w2 :: ws2)) hw1
        (Or.inr ⟨' ', joinWords (w2 :: ws2), rfl, by decide⟩)]
      simp only []
      have hskip : wordsOf (' ' :: joinWords (w2 :: ws2)) =
          wordsOf (joinWords (w2 :: ws2)) := by
        simp [wordsOf]
      rw [hskip, ih (fun u hu => h u (List.mem_cons_of_mem _ hu))]

lemma orEmptyStr_str (s : String) :
    orEmptyStr (some (.str s)) = .ok (if s = "" then "" else s) := by
  unfold orEmptyStr JVal.falsy
  by_cases h : s = "" <;> simp [h]

lemma toList_mk (l : List Char) : (String.mk l).toList = l := rfl

lemma fixName_of_short {m : JObj} {nm : String}
    (h : ¬ (stripChars nm.toList ≠ [] ∧ (wordsOf (stripChars nm.toList)).length > 4)) :
    fixName m nm = m := by
  unfold fixName
  rw [if_neg h]

/-- C4: normalization is idempotent: a successful output of _normalize_meal is
a fixed point, so normalize(normalize(m)) = normalize(m). -/
theorem normalize_idempotent (m r : JObj) (h : normalizeMeal m = .ok r) :
    normalizeMeal r = .ok r := by
  obtain ⟨ma, ca, fa, ss, nm, h1, h2, h3, h4, h5, hr⟩ := normalizeMeal_shape h
  have hrm : aget r "macros" = some (JVal.obj (macrosOut ma ca fa)) := by
    rw [hr, aget_fixName_ne _ _ (by decide),
      aget_aset_ne _ _ (by decide : "macros" ≠ "servingSize"), aget_aset_self]
  have hrs : aget r "servingSize" = some (JVal.obj (servingOut ss)) := by
    rw [hr, aget_fixName_ne _ _ (by decide), aget_aset_self]
  have hMc : aget (macrosOut ma ca fa) "carbohydrates" =
      some (JVal.obj (asObj (aget (macrosOut ma ca fa) "carbohydrates"))) := by
    simp only [macrosOut, aget, asObj, String.reduceEq, reduceIte, if_true, if_false]
  have hMf : aget (macrosOut ma ca fa) "fat" =
      some (JVal.obj (asObj (aget (macrosOut ma ca fa) "fat"))) := by
    simp only [macrosOut, aget, asObj, String.reduceEq, reduceIte, if_true, if_false]
  have hCne : asObj (aget (macrosOut ma ca fa) "carbohydrates") ≠ [] := by
    simp [macrosOut, aget, asObj]
  have hFne : asObj (aget (macrosOut ma ca fa) "fat") ≠ [] := by
    simp [macrosOut, aget, asObj]
  unfold normalizeMeal
  rw [hrm, orEmptyObj_obj_ne (macrosOut_ne_nil ma ca fa)]
  dsimp only []
  rw [hMc, orEmptyObj_obj_ne hCne]
  dsimp only []
  rw [hMf, orEmptyObj_obj_ne hFne]
  dsimp only []
  rw [macrosOut_idem, aset_eq_self_of_aget r hrm]
  rw [hrs, orEmptyObj_obj_ne (servingOut_ne_nil ss)]
  dsimp only []
  rw [servingOut_idem, aset_eq_self_of_aget r hrs]
  by_cases hcond : stripChars nm.toList ≠ [] ∧ (wordsOf (stripChars nm.toList)).length > 4
  · have hrn : aget r "mealName" = some (JVal.str (String.mk
        (joinWords ((wordsOf (stripChars nm.toList)).take 4)))) := by
      rw [hr]
      unfold fixName
      rw [if_pos hcond, aget_aset_self]
    have hwords : (wordsOf (stripChars (String.mk
        (joinWords ((wordsOf (stripChars nm.toList)).take 4))).toList)).length = 4 := by
      rw [toList_mk, wordsOf_stripChars, wordsOf_joinWords _ (fun w hw =>
        wordsOf_mem _ w (List.mem_of_mem_take hw)), List.length_take]
      have h4 := hcond.2
      omega
    rw [hrn, orEmptyStr_str]
    dsimp only []
    split_ifs with hemp
    · rw [@fixName_of_short r "" (fun hcc => hcc.1 rfl)]
    · rw [fixName_of_short (by
        intro hcc
        rw [hwords] at hcc
        exact absurd hcc.2 (by omega))]
  · have h5r : orEmptyStr (aget r "mealName") = .ok nm := by
      rw [hr, fixName_of_short hcond]
      exact h5
    rw [h5r]
    dsimp only []
    rw [hr, fixName_of_short hcond, fixName_of_short hcond]

/-- Witness for C4: an empty meal normalizes to a fixed point. -/
theorem normalize_idempotent_witness :
    normalizeMeal (okD (normalizeMeal [])) = .ok (okD (normalizeMeal [])) :=
  normalize_idempotent [] _ rfl

/-! ### Totality of the normalizer on its contract scope (C5) -/

/-- A structural field value that the source's `(x or {})` + attribute-access
pattern tolerates: absent, falsy, or an actual dict. -/
def DictLike : Option JVal → Prop
  | none => True
  | some v => v.falsy = true ∨ ∃ o, v = JVal.obj o

/-- A mealName value that `(x or "").strip()` tolerates: absent, falsy, or an
actual string. -/
def StrLike : Option JVal → Prop
  | none => True
  | some v => v.falsy = true ∨ ∃ s, v = JVal.str s

/-- Observe a string-valued field ("" when absent or not a string). -/
def asStr : Option JVal → String
  | some (.str s) => s
  | _ => ""

lemma orEmptyObj_of_dictLike : ∀ {x : Option JVal}, DictLike x →
    orEmptyObj x = .ok (asObj x)
  | none, _ => rfl
  | some v, h => by
    cases v with
    | null => rfl
    | bool b =>
      rcases h with hf | ⟨o, ho⟩
      · unfold orEmptyObj
        dsimp only []
        rw [if_pos hf]
        rfl
      · cases ho
    | num q =>
      rcases h with hf | ⟨o, ho⟩
      · unfold orEmptyObj
        dsimp only []
        rw [if_pos hf]
        rfl
      · cases ho
    | str s =>
      rcases h with hf | ⟨o, ho⟩
      · unfold orEmptyObj
        dsimp only []
        rw [if_pos hf]
        rfl
      · cases ho
    | arr l =>
      rcases h with hf | ⟨o, ho⟩
      · unfold orEmptyObj
        dsimp only []
        rw [if_pos hf]
        rfl
      · cases ho
    | obj o =>
      by_cases hf : (JVal.obj o).falsy = true
      · have ho : o = [] := by simpa [JVal.falsy, List.isEmpty_iff] using hf
        subst ho
        rfl
      · unfold orEmptyObj
        dsimp only []
        rw [if_neg hf]
        rfl

lemma orEmptyStr_of_strLike : ∀ {x : Option JVal}, StrLike x →
    orEmptyStr x = .ok (asStr x)
  | none, _ => rfl
  | some v, h => by
    cases v with
    | null => rfl
    | bool b =>
      rcases h with hf | ⟨t, ht⟩
      · unfold orEmptyStr
        dsimp only []
        rw [if_pos hf]
        rfl
      · cases ht
    | num q =>
      rcases h with hf | ⟨t, ht⟩
      · unfold orEmptyStr
        dsimp only []
        rw [if_pos hf]
        rfl
      · cases ht
    | arr l =>
      rcases h with hf | ⟨t, ht⟩
      · unfold orEmptyStr
        dsimp only []
        rw [if_pos hf]
        rfl
      · cases ht
    | obj o =>
      rcases h with hf | ⟨t, ht⟩
      · unfold orEmptyStr
        dsimp only []
        rw [if_pos hf]
        rfl
      · cases ht
    | str t =>
      by_cases hf : (JVal.str t).falsy = true
      · have ht : t = "" := by simpa [JVal.falsy] using hf
        subst ht
        rfl
      · unfold orEmptyStr
        dsimp only []
        rw [if_neg hf]
        rfl

/-- The macros dict of the input (empty when absent or non-dict). -/
def inMacros (m : JObj) : JObj := asObj (aget m "macros")

/-- The carbohydrates dict of the input. -/
def inCarbs (m : JObj) : JObj := asObj (aget (inMacros m) "carbohydrates")

/-- The fat dict of the input. -/
def inFat (m : JObj) : JObj := asObj (aget (inMacros m) "fat")

/-- The scope of the contract in §4.2: every field may be missing and numeric
fields may have arbitrary (wrong) types, while the structural container
fields are absent, falsy or of the right type. -/
def StructOk (m : JObj) : Prop :=
  DictLike (aget m "macros") ∧
  DictLike (aget (inMacros m) "carbohydrates") ∧
  DictLike (aget (inMacros m) "fat") ∧
  DictLike (aget m "servingSize") ∧
  StrLike (aget m "mealName")

lemma safeNum_none {x : Option JVal} (h : pyFloatO x = none) (d : Option ℕ)
    (b : Bool) : safeNum x d b = 0 := by
  unfold safeNum
  rw [h]

/-- A failed numeric coercion of any single macro field yields 0.0 for that
field in the output. -/
def GracefulZeroes (m r : JObj) : Prop :=
  (pyFloatO (aget (inMacros m) "protein") = none → fieldQ (macrosOf r) "protein" = 0) ∧
  (pyFloatO (aget (inCarbs m) "total") = none → fieldQ (carbsOf r) "total" = 0) ∧
  (pyFloatO (aget (inCarbs m) "fiber") = none → fieldQ (carbsOf r) "fiber" = 0) ∧
  (pyFloatO (aget (inCarbs m) "sugar") = none → fieldQ (carbsOf r) "sugar" = 0) ∧
  (pyFloatO (aget (inCarbs m) "addedSugar") = none → fieldQ (carbsOf r) "addedSugar" = 0) ∧
  (pyFloatO (aget (inCarbs m) "sugarAlcohols") = none →
    fieldQ (carbsOf r) "sugarAlcohols" = 0) ∧
  (pyFloatO (aget (inCarbs m) "allulose") = none → fieldQ (carbsOf r) "allulose" = 0) ∧
  (pyFloatO (aget (inFat m) "total") = none → fieldQ (fatOf r) "total" = 0) ∧
  (pyFloatO (aget (inFat m) "saturated") = none → fieldQ (fatOf r) "saturated" = 0) ∧
  (pyFloatO (aget (inFat m) "monounsaturated") = none →
    fieldQ (fatOf r) "monounsaturated" = 0) ∧
  (pyFloatO (aget (inFat m) "polyunsaturated") = none →
    fieldQ (fatOf r) "polyunsaturated" = 0) ∧
  (pyFloatO (aget (inFat m) "omega3") = none → fieldQ (fatOf r) "omega3" = 0) ∧
  (pyFloatO (aget (inFat m) "omega6") = none → fieldQ (fatOf r) "omega6" = 0) ∧
  (pyFloatO (aget (inFat m) "cholesterol") = none → fieldQ (fatOf r) "cholesterol" = 0)

lemma gracefulZeroes_of_macros {m r : JObj}
    (hm : aget r "macros" = some (JVal.obj (macrosOut (inMacros m) (inCarbs m) (inFat m)))) :
    GracefulZeroes m r := by
  unfold GracefulZeroes fieldQ fatOf carbsOf macrosOf
  rw [hm]
  simp only [macrosOut, coerce1, aget, asNum, asObj, String.reduceEq, reduceIte,
    if_true, if_false]
  refine ⟨?_, ?_, ?_, ?_, ?_, ?_, ?_, ?_, ?_, ?_, ?_, ?_, ?_, ?_⟩
  · intro hno; rw [safeNum_none hno]
  · intro hno; rw [safeNum_none hno]
  · intro hno
    rw [safeNum_none hno, if_neg (not_lt.mpr (safeNum_nonneg _ _))]
  · intro hno
    rw [safeNum_none hno, if_neg (not_lt.mpr (safeNum_nonneg _ _))]
  · intro hno; rw [safeNum_none hno]
  · intro hno; rw [safeNum_none hno]
  · intro hno; rw [safeNum_none hno]
  · intro hno; rw [safeNum_none hno]
  · intro hno
    rw [safeNum_none hno, if_neg (not_lt.mpr (safeNum_nonneg _ _))]
  · intro hno; rw [safeNum_none hno]
  · intro hno; rw [safeNum_none hno]
  · intro hno; rw [safeNum_none hno]
  · intro hno; rw [safeNum_none hno]
  · intro hno; rw [safeNum_none hno]

/-- C5: on every input mapping within the contract scope (missing fields or
wrongly-typed numeric fields), the normalizer succeeds, and a failed numeric
coercion of any single macro field yields 0.0 for that field while the rest of
the record is still produced. -/
theorem normalize_total_on_scope (m : JObj) (hs : StructOk m) :
    ∃ r, normalizeMeal m = .ok r ∧ GracefulZeroes m r := by
  obtain ⟨hd1, hd2, hd3, hd4, hd5⟩ := hs
  unfold inMacros at hd2 hd3
  refine ⟨fixName (aset (aset m "macros"
      (JVal.obj (macrosOut (asObj (aget m "macros"))
        (asObj (aget (asObj (aget m "macros")) "carbohydrates"))
        (asObj (aget (asObj (aget m "macros")) "fat")))))
      "servingSize" (JVal.obj (servingOut (asObj (aget m "servingSize")))))
      (asStr (aget (aset (aset m "macros"
        (JVal.obj (macrosOut (asObj (aget m "macros"))
          (asObj (aget (asObj (aget m "macros")) "carbohydrates"))
          (asObj (aget (asObj (aget m "macros")) "fat")))))
        "servingSize" (JVal.obj (servingOut (asObj (aget m "servingSize")))))
        "mealName")), ?_, ?_⟩
  · unfold normalizeMeal
    rw [orEmptyObj_of_dictLike hd1]
    dsimp only []
    rw [orEmptyObj_of_dictLike hd2]
    dsimp only []
    rw [orEmptyObj_of_dictLike hd3]
    dsimp only []
    rw [aget_aset_ne _ _ (by decide : "servingSize" ≠ "macros"),
      orEmptyObj_of_dictLike hd4]
    dsimp only []
    have hd5m : StrLike (aget (aset (aset m "macros"
        (JVal.obj (macrosOut (asObj (aget m "macros"))
          (asObj (aget (asObj (aget m "macros")) "carbohydrates"))
          (asObj (aget (asObj (aget m "macros")) "fat")))))
        "servingSize" (JVal.obj (servingOut (asObj (aget m "servingSize")))))
        "mealName") := by
      rw [aget_aset_ne _ _ (by decide : "mealName" ≠ "servingSize"),
        aget_aset_ne _ _ (by decide : "mealName" ≠ "macros")]
      exact hd5
    rw [orEmptyStr_of_strLike hd5m]
  · apply gracefulZeroes_of_macros
    rw [aget_fixName_ne _ _ (by decide),
      aget_aset_ne _ _ (by decide : "macros" ≠ "servingSize"), aget_aset_self]
    unfold inMacros inCarbs inFat
    rfl

/-- Witness input for C5: macros present, protein of the wrong type. -/
def mEx5 : JObj := [("macros", JVal.obj [("protein", JVal.str "abc")])]

theorem normalize_total_on_scope_witness :
    ∃ r, normalizeMeal mEx5 = .ok r ∧ GracefulZeroes mEx5 r :=
  normalize_total_on_scope mEx5 ⟨Or.inr ⟨_, rfl⟩, trivial, trivial, trivial, trivial⟩

/-! ### Serving-size normalization (C6) -/

lemma orEmptyObj_ok_asObj : ∀ {x : Option JVal} {o : JObj},
    orEmptyObj x = .ok o → asObj x = o := by
  intro x o h
  cases x with
  | none =>
    simpa [orEmptyObj, asObj] using h
  | some v =>
    by_cases hf : v.falsy = true
    · unfold orEmptyObj at h
      dsimp only [] at h
      rw [if_pos hf] at h
      have ho : o = [] := (Except.ok.inj h).symm
      subst ho
      cases v with
      | obj o2 =>
        have : o2 = [] := by simpa [JVal.falsy, List.isEmpty_iff] using hf
        subst this
        rfl
      | null => rfl
      | bool b => rfl
      | num q => rfl
      | str s => rfl
      | arr l => rfl
    · unfold orEmptyObj at h
      dsimp only [] at h
      rw [if_neg hf] at h
      cases v with
      | obj o2 => simpa [asObj] using Except.ok.inj h
      | null => cases h
      | bool b => cases h
      | num q => cases h
      | str s => cases h
      | arr l => cases h

/-- The servingSize dict of the input (empty when absent or non-dict). -/
def inServing (m : JObj) : JObj := asObj (aget m "servingSize")

/-- Counterexample input for C6: a negative qty is passed through unclamped. -/
def mNeg : JObj := [("servingSize", JVal.obj [("qty", JVal.num (-5))])]

/-- C6 counterexample: the claimed non-negativity fails; int(qty) does not
clamp, so normalizing a serving with qty = -5 yields qty = -5 < 0. -/
theorem serving_nonneg_cex :
    normalizeMeal mNeg = .ok (okD (normalizeMeal mNeg)) ∧
    fieldQ (ssOf (okD (normalizeMeal mNeg))) "qty" = -5 ∧
    fieldQ (ssOf (okD (normalizeMeal mNeg))) "qty" < 0 :=
  ⟨rfl, rfl, by
    rw [show fieldQ (ssOf (okD (normalizeMeal mNeg))) "qty" = -5 from rfl]
    norm_num⟩

/-- The amended C6 conclusion: qty and grams are integers (not necessarily
non-negative), with defaults 1 and 0 on coercion failure, and unit passed
through unchanged when present, defaulting to "plate" when absent. -/
def ServingIntFields (m r : JObj) : Prop :=
  ∃ q g : ℤ,
    aget (ssOf r) "qty" = some (JVal.num (q : ℚ)) ∧
    aget (ssOf r) "grams" = some (JVal.num (g : ℚ)) ∧
    (pyInt ((aget (inServing m) "qty").getD (JVal.num 1)) = none → q = 1) ∧
    (pyFloat ((aget (inServing m) "grams").getD (JVal.num 0)) = none → g = 0) ∧
    (∀ u, aget (inServing m) "unit" = some u → aget (ssOf r) "unit" = some u) ∧
    (aget (inServing m) "unit" = none → aget (ssOf r) "unit" = some (JVal.str "plate"))

/-- C6 amended: for every successful normalization the output servingSize has
integer qty and grams, qty defaulting to 1 and grams to 0 when coercion
fails, and unit passed through with default "plate" when absent. -/
theorem serving_fields_integers (m r : JObj) (h : normalizeMeal m = .ok r) :
    ServingIntFields m r := by
  obtain ⟨ma, ca, fa, ss, h1, h2, h3, h4, hm, hs⟩ := normalizeMeal_fields h
  have hss : asObj (aget m "servingSize") = ss := orEmptyObj_ok_asObj h4
  unfold ServingIntFields inServing ssOf
  rw [hss, hs]
  refine ⟨(pyInt ((aget ss "qty").getD (JVal.num 1))).getD 1,
    ((pyFloat ((aget ss "grams").getD (JVal.num 0))).map truncQ).getD 0,
    ?_, ?_, ?_, ?_, ?_, ?_⟩
  · simp only [servingOut, asObj, aget, String.reduceEq, reduceIte, if_true, if_false]
  · simp only [servingOut, asObj, aget, String.reduceEq, reduceIte, if_true, if_false]
  · intro hno
    rw [hno]
    rfl
  · intro hno
    rw [hno]
    rfl
  · intro u hu
    simp only [servingOut, asObj, aget, String.reduceEq, reduceIte, if_true, if_false]
    rw [hu]
    rfl
  · intro hno
    simp only [servingOut, asObj, aget, String.reduceEq, reduceIte, if_true, if_false]
    rw [hno]
    rfl

/-- Witness for the amended C6 at the concrete counterexample input. -/
theorem serving_fields_integers_witness : ServingIntFields mNeg (okD (normalizeMeal mNeg)) :=
  serving_fields_integers mNeg _ rfl

/-! ### Extraction claims (C7, C8) -/

/-- C7 counterexample: extraction of "[1]" succeeds and returns a sequence
whose element is the number 1, not a mapping — the extractor performs no
element-type validation. -/
theorem extract_mapping_cex :
    extractMeals "[1]" = .ok [JVal.num 1] ∧ JVal.isObj (JVal.num 1) = false :=
  ⟨rfl, rfl⟩

/-- C7 amended: the extractor returns parsed sequences verbatim without
validating that elements are mappings; in particular any input whose stripped
text parses as a JSON array extracts to exactly that array's elements,
mappings or not. -/
theorem extract_array_verbatim (s : String) (xs : List JVal)
    (h : jsonParse (pyStrip s) = some (.arr xs)) : extractMeals s = .ok xs := by
  unfold extractMeals
  by_cases he : pyStrip s = ""
  · rw [he] at h
    rw [show jsonParse "" = none from rfl] at h
    cases h
  · rw [if_neg he]
    unfold directParse
    rw [h]
    rfl

/-- Witness for the amended C7. -/
theorem extract_array_verbatim_witness : extractMeals "[1]" = .ok [JVal.num 1] :=
  extract_array_verbatim "[1]" [JVal.num 1] rfl

lemma snippet_length (t : String) : (snippet t).length ≤ 300 := by
  rw [show (snippet t).length =
    ((t.toList.take 300).map (fun c => if c = '\n' then ' ' else c)).length from rfl]
  rw [List.length_map, List.length_take]
  omega

/-- C8: extraction fails exactly when the stripped input is empty or all four
fallback strategies fail to locate a JSON array/object; in the
all-strategies-failed case the error carries the diagnostic snippet, which is
at most 300 characters long. -/
theorem extract_failure_iff (content : String) :
    (isErr (extractMeals content) = true ↔
      (pyStrip content = "" ∨
        (directParse (pyStrip content) = none ∧
         fencedParse (pyStrip content).toList = none ∧
         arrSlice (pyStrip content).toList = none ∧
         objSlice (pyStrip content).toList = none))) ∧
    (∀ sn, extractMeals content = .error (.malformed sn) →
      sn = snippet (pyStrip content) ∧ sn.length ≤ 300) := by
  unfold extractMeals
  by_cases he : pyStrip content = ""
  · rw [if_pos he]
    constructor
    · simp [isErr, he]
    · intro sn hsn
      cases hsn
  · rw [if_neg he]
    cases hd : directParse (pyStrip content) with
    | some l =>
      constructor
      · simp [isErr, he, hd]
      · intro sn hsn
        cases hsn
    | none =>
    cases hf : fencedParse (pyStrip content).toList with
    | some l =>
      constructor
      · simp [isErr, he, hf]
      · intro sn hsn
        cases hsn
    | none =>
    cases ha : arrSlice (pyStrip content).toList with
    | some l =>
      constructor
      · simp [isErr, he, ha]
      · intro sn hsn
        cases hsn
    | none =>
    cases ho : objSlice (pyStrip content).toList with
    | some l =>
      constructor
      · simp [isErr, he, ho]
      · intro sn hsn
        cases hsn
    | none =>
      constructor
      · simp [isErr, he]
      · intro sn hsn
        have : snippet (pyStrip content) = sn := by
          have := (Except.error.inj hsn)
          cases this
          rfl
        rw [← this]
        exact ⟨rfl, snippet_length _⟩

/-- Witness for C8: the empty input fails. -/
theorem extract_failure_iff_witness : isErr (extractMeals "") = true :=
  (extract_failure_iff "").1.mpr (Or.inl rfl)

/-! ### Cache lemmas (C9, C10) -/

lemma orderedInsert_append_single (a x : String × ℚ) (w : List (String × ℚ))
    (h : tsLE a x) :
    ∃ w2, List.orderedInsert tsLE a (w ++ [x]) = w2 ++ [x] ∧ List.Perm w2 (a :: w) := by
  induction w with
  | nil =>
    refine ⟨[a], ?_, List.Perm.refl _⟩
    simp [List.orderedInsert, h]
  | cons b w ih =>
    by_cases hab : tsLE a b
    · refine ⟨a :: b :: w, ?_, List.Perm.refl _⟩
      simp [List.orderedInsert, hab]
    · obtain ⟨w2, hw2, hperm⟩ := ih
      refine ⟨b :: w2, ?_, ?_⟩
      · simp [List.orderedInsert, hab, hw2]
      · exact (hperm.cons b).trans (List.Perm.swap a b w)

/-- Stability of the sort: an appended entry with a maximal timestamp stays
last, as with Python's stable sorted. -/
lemma insertionSort_append_max (l : List (String × ℚ)) (x : String × ℚ)
    (h : ∀ y ∈ l, tsLE y x) :
    ∃ w, List.insertionSort tsLE (l ++ [x]) = w ++ [x] ∧ List.Perm w l := by
  induction l with
  | nil =>
    refine ⟨[], ?_, List.Perm.refl _⟩
    simp [List.insertionSort, List.orderedInsert]
  | cons a l ih =>
    obtain ⟨w, hw, hperm⟩ := ih (fun y hy => h y (List.mem_cons_of_mem _ hy))
    have ha : tsLE a x := h a (List.mem_cons_self _ _)
    obtain ⟨w2, hw2, hperm2⟩ := orderedInsert_append_single a x w ha
    refine ⟨w2, ?_, hperm2.trans (hperm.cons a)⟩
    show List.insertionSort tsLE (a :: (l ++ [x])) = w2 ++ [x]
    rw [List.insertionSort, hw, hw2]

lemma aget_foldl_adel {V : Type} (ks : List (String × ℚ)) (l : List (String × V))
    (key : String) (h : ∀ e ∈ ks, e.1 ≠ key) :
    aget (ks.foldl (fun st kv => adel st kv.1) l) key = aget l key := by
  induction ks generalizing l with
  | nil => rfl
  | cons e ks ih =>
    rw [List.foldl_cons, ih _ (fun e2 he2 => h e2 (List.mem_cons_of_mem _ he2))]
    exact aget_adel_ne l (fun hh => (h e (List.mem_cons_self _ _)) hh.symm)

lemma foldl_adel_length_le {V : Type} (ks : List (String × ℚ)) (l : List (String × V)) :
    (ks.foldl (fun st kv => adel st kv.1) l).length ≤ l.length := by
  induction ks generalizing l with
  | nil => exact le_rfl
  | cons e ks ih => exact le_trans (ih _) (adel_length_le _ _)

lemma map_fst_foldl_adel {V : Type} (ks : List (String × ℚ)) (l : List (String × V)) :
    (ks.foldl (fun st kv => adel st kv.1) l).map Prod.fst =
      ks.foldl (fun acc k => acc.filter (fun x => x ≠ k.1)) (l.map Prod.fst) := by
  induction ks generalizing l with
  | nil => rfl
  | cons e ks ih => rw [List.foldl_cons, List.foldl_cons, ih, map_fst_adel]

lemma nodup_foldl_filter (ks : List (String × ℚ)) (l : List String) (h : l.Nodup) :
    (ks.foldl (fun acc k => acc.filter (fun x => x ≠ k.1)) l).Nodup := by
  induction ks generalizing l with
  | nil => exact h
  | cons e ks ih => exact ih _ (h.filter _)

/-- C10: the cache invariant — store and meta hold the same keys without
duplicates and the entry count is within capacity — is preserved by both
_cache_get (with its expiry eviction) and _cache_set (with its batch
eviction). -/
theorem cache_inv_preserved {V : Type} (cap : ℕ) (ttl : ℚ) (s : CacheState V)
    (key : String) (v : V) (now : ℚ) (h : CacheInv cap s) :
    CacheInv cap (cacheGet ttl s key now).2 ∧ CacheInv cap (cacheSet cap s key v now) := by
  obtain ⟨hk, hnd, hlen⟩ := h
  constructor
  · unfold cacheGet
    cases hts : aget s.meta key with
    | none => exact ⟨hk, hnd, hlen⟩
    | some ts =>
      dsimp only []
      by_cases hex : now - ts > ttl
      · rw [if_pos hex]
        refine ⟨?_, ?_, ?_⟩
        · show (adel s.store key).map Prod.fst = (adel s.meta key).map Prod.fst
          rw [map_fst_adel, map_fst_adel, hk]
        · show ((adel s.meta key).map Prod.fst).Nodup
          rw [map_fst_adel]
          exact hnd.filter _
        · exact le_trans (adel_length_le _ _) hlen
      · rw [if_neg hex]
        exact ⟨hk, hnd, hlen⟩
  · have hk2 : (aset s.store key v).map Prod.fst = (aset s.meta key now).map Prod.fst := by
      rw [map_fst_aset, map_fst_aset, hk]
    have hnd2 : ((aset s.meta key now).map Prod.fst).Nodup := by
      rw [map_fst_aset]
      split_ifs with hmem
      · exact hnd
      · refine List.Nodup.append hnd (List.nodup_singleton _) ?_
        intro a ha hb
        rcases List.mem_singleton.mp hb with rfl
        exact hmem ha
    unfold cacheSet
    by_cases hover : (aset s.store key v).length > cap
    · rw [if_pos hover]
      dsimp only []
      have hmne : aset s.meta key now ≠ [] := aset_ne_nil _ _ _
      have hsne : List.insertionSort tsLE (aset s.meta key now) ≠ [] := by
        intro hnil
        have hp := List.perm_insertionSort tsLE (aset s.meta key now)
        rw [hnil] at hp
        exact hmne hp.symm.eq_nil
      obtain ⟨z, rest, hzr⟩ := List.exists_cons_of_ne_nil hsne
      have ht : 1 ≤ max 1 (cap / 10) := le_max_left _ _
      have hEcons : evictList (aset s.meta key now) cap =
          z :: (rest.take (max 1 (cap / 10) - 1)) := by
        rw [evictList, hzr]
        cases hmax : max 1 (cap / 10) with
        | zero => omega
        | succ n => simp
      have hz : z ∈ aset s.meta key now := by
        have hp := List.perm_insertionSort tsLE (aset s.meta key now)
        exact hp.subset (hzr ▸ List.mem_cons_self _ _)
      have hz1 : z.1 ∈ (aset s.store key v).map Prod.fst := by
        rw [hk2]
        exact List.mem_map_of_mem _ hz
      refine ⟨?_, ?_, ?_⟩
      · rw [map_fst_foldl_adel, map_fst_foldl_adel, hk2]
      · rw [map_fst_foldl_adel]
        exact nodup_foldl_filter _ _ hnd2
      · have hlt := adel_length_lt (aset s.store key v) hz1
        have hle := aset_length_le s.store key v
        calc ((evictList (aset s.meta key now) cap).foldl
              (fun st kv => adel st kv.1) (aset s.store key v)).length
            = ((rest.take (max 1 (cap / 10) - 1)).foldl
              (fun st kv => adel st kv.1) (adel (aset s.store key v) z.1)).length := by
              rw [hEcons, List.foldl_cons]
          _ ≤ (adel (aset s.store key v) z.1).length := foldl_adel_length_le _ _
          _ ≤ cap := by omega
    · rw [if_neg hover]
      exact ⟨hk2, hnd2, le_of_not_lt hover⟩

/-- Witness for C10 at a concrete cache state. -/
theorem cache_inv_preserved_witness :
    CacheInv 2 (cacheGet 10 (⟨[("a", 7)], [("a", 0)]⟩ : CacheState ℕ) "b" 3).2 ∧
    CacheInv 2 (cacheSet 2 (⟨[("a", 7)], [("a", 0)]⟩ : CacheState ℕ) "b" 9 3) :=
  cache_inv_preserved 2 10 _ "b" 9 3 ⟨rfl, by decide, by decide⟩

/-- C9: when a set call pushes the entry count over a positive capacity (the
clock having advanced at least to the stamps already stored), the eviction
pass removes at least one and at most max(1, capacity / 10) entries, every
evicted entry is at least as old as every kept entry, and the entry just
inserted is never among the evicted — it is still retrievable afterwards. -/
theorem cache_eviction_bounds {V : Type} (cap : ℕ) (s : CacheState V) (key : String)
    (v : V) (now : ℚ) (hcap : 1 ≤ cap) (hinv : CacheInv cap s)
    (hclock : ∀ kv ∈ s.meta, kv.2 ≤ now)
    (htrig : (aset s.store key v).length > cap) :
    1 ≤ (evictList (aset s.meta key now) cap).length ∧
    (evictList (aset s.meta key now) cap).length ≤ max 1 (cap / 10) ∧
    (∀ e ∈ evictList (aset s.meta key now) cap, ∀ kv ∈ aset s.meta key now,
      kv ∉ evictList (aset s.meta key now) cap → e.2 ≤ kv.2) ∧
    (key, now) ∉ evictList (aset s.meta key now) cap ∧
    aget (cacheSet cap s key v now).store key = some v := by
  obtain ⟨hk, hnd, hlen⟩ := hinv
  have hfresh : key ∉ s.store.map Prod.fst := by
    intro hmem
    have := aset_length_of_mem s.store (k := key) v hmem
    omega
  have hfreshm : key ∉ s.meta.map Prod.fst := by
    rw [← hk]
    exact hfresh
  have hmeta : aset s.meta key now = s.meta ++ [(key, now)] :=
    aset_of_not_mem _ _ hfreshm
  obtain ⟨w, hw, hperm⟩ := insertionSort_append_max s.meta (key, now)
    (fun y hy => hclock y hy)
  have hwlen : w.length = s.meta.length := hperm.length_eq
  have hslen : s.store.length = s.meta.length := by
    have := congrArg List.length hk
    simpa using this
  have hcaple : max 1 (cap / 10) ≤ w.length := by
    have h1 : cap / 10 ≤ cap := Nat.div_le_self _ _
    have h2 : cap ≤ s.store.length := by
      have := aset_length_le s.store key v
      omega
    omega
  have hsort : List.insertionSort tsLE (aset s.meta key now) = w ++ [(key, now)] := by
    rw [hmeta]
    exact hw
  have htake : evictList (aset s.meta key now) cap = w.take (max 1 (cap / 10)) := by
    rw [evictList, hsort, List.take_append_of_le_length hcaple]
  have hnotin : (key, now) ∉ evictList (aset s.meta key now) cap := by
    rw [htake]
    intro hmem
    have h1 : (key, now) ∈ w := List.mem_of_mem_take hmem
    have h2 : (key, now) ∈ s.meta := hperm.subset h1
    exact hfreshm (List.mem_map_of_mem Prod.fst h2)
  refine ⟨?_, ?_, ?_, hnotin, ?_⟩
  · rw [htake, List.length_take]
    omega
  · rw [htake, List.length_take]
    omega
  · intro e he kv hkv hnkv
    have hsorted : List.Sorted tsLE (List.insertionSort tsLE (aset s.meta key now)) :=
      List.sorted_insertionSort _ _
    have hSperm : List.Perm (List.insertionSort tsLE (aset s.meta key now))
        (aset s.meta key now) := List.perm_insertionSort _ _
    have hkvS : kv ∈ List.insertionSort tsLE (aset s.meta key now) :=
      hSperm.mem_iff.mpr hkv
    have hEtake : evictList (aset s.meta key now) cap =
        (List.insertionSort tsLE (aset s.meta key now)).take (max 1 (cap / 10)) := rfl
    have hsplit := List.take_append_drop (max 1 (cap / 10))
      (List.insertionSort tsLE (aset s.meta key now))
    have hkvdrop : kv ∈ (List.insertionSort tsLE (aset s.meta key now)).drop
        (max 1 (cap / 10)) := by
      rcases List.mem_append.mp (by rw [hsplit]; exact hkvS) with h1 | h2
      · exact absurd (hEtake ▸ h1) hnkv
      · exact h2
    have hcross := (List.pairwise_append.mp (by
      rw [hsplit]
      exact hsorted)).2.2
    exact hcross e (hEtake ▸ he) kv hkvdrop
  · unfold cacheSet
    rw [if_pos htrig]
    dsimp only []
    rw [aget_foldl_adel _ _ _ (fun e he2 => ?_), aget_aset_self]
    intro hh
    have h1 : e ∈ w := List.mem_of_mem_take (htake ▸ he2)
    have h2 : e ∈ s.meta := hperm.subset h1
    have h3 : e.1 ∈ s.meta.map Prod.fst := List.mem_map_of_mem Prod.fst h2
    rw [hh] at h3
    exact hfreshm h3

/-- Witness for C9: capacity 1 cache holding one entry, inserting a second. -/
theorem cache_eviction_bounds_witness :
    1 ≤ (evictList (aset [("a", (0 : ℚ))] "b" 1) 1).length ∧
    (evictList (aset [("a", (0 : ℚ))] "b" 1) 1).length ≤ max 1 (1 / 10) ∧
    (∀ e ∈ evictList (aset [("a", (0 : ℚ))] "b" 1) 1,
      ∀ kv ∈ aset [("a", (0 : ℚ))] "b" 1,
      kv ∉ evictList (aset [("a", (0 : ℚ))] "b" 1) 1 → e.2 ≤ kv.2) ∧
    ("b", (1 : ℚ)) ∉ evictList (aset [("a", (0 : ℚ))] "b" 1) 1 ∧
    aget (cacheSet 1 (⟨[("a", 7)], [("a", 0)]⟩ : CacheState ℕ) "b" 9 1).store "b" = some 9 :=
  cache_eviction_bounds 1 (⟨[("a", 7)], [("a", 0)]⟩ : CacheState ℕ) "b" 9 1
    le_rfl ⟨rfl, by decide, by decide⟩
    (by
      intro kv hkv
      rcases List.mem_singleton.mp hkv with rfl
      norm_num)
    (by decide)

end CalorieAI
